import Mathlib

/-!
Shallow embedding of `src/train_bpe.py` (a character-level BPE trainer)
and verification of the specification's claims about it.

Python strings are modelled as `List Char` (a Python `str` is a sequence of
Unicode code points).  Python `dict`/`Counter` objects are modelled as
association lists in insertion order, which is exactly the iteration order
Python guarantees; `d[k] = v` updates in place (keeping the key's position)
or appends a fresh key at the end.
-/

/-- Python string: a sequence of Unicode code points. -/
abbrev Str := List Char

/-- Python whitespace test, as used by `str.split()` with no arguments and by
the regex classes `\s` / `\S` (restricted to the ASCII whitespace characters;
no other character appears in the strings this development manipulates). -/
def isSpacePy (c : Char) : Bool :=
  c = ' ' || c = '\t' || c = '\n' || c = '\r' || c = '\x0b' || c = '\x0c'

/-- Helper for `splitWs`: `cur` holds the characters of the current word,
in reverse order. -/
def splitWsAux : Str → Str → List Str
  | cur, [] => if cur = [] then [] else [cur.reverse]
  | cur, c :: rest =>
    if isSpacePy c then
      if cur = [] then splitWsAux [] rest else cur.reverse :: splitWsAux [] rest
    else splitWsAux (c :: cur) rest

/-- Python `str.split()` with no arguments: split on runs of whitespace,
producing no empty parts. -/
def splitWs (s : Str) : List Str := splitWsAux [] s

/-- Python `' '.join(parts)`. -/
def joinSpace : List Str → Str
  | [] => []
  | [s] => s
  | s :: t :: rest => s ++ ' ' :: joinSpace (t :: rest)

/-- The reserved word-boundary marker `</w>` appended by `read_sentences`. -/
def endMarker : Str := ['<', '/', 'w', '>']

/-- Line 23 of the source: `' '.join(list(word)) + ' </w>'`. -/
def tokenizeWord (w : Str) : Str :=
  joinSpace (w.map (fun c => [c])) ++ ' ' :: endMarker

/-- Python `d.get(k)` on an insertion-ordered dict, returning `None` when
absent. -/
def dictFind [DecidableEq α] : List (α × β) → α → Option β
  | [], _ => none
  | (k0, v0) :: rest, k => if k = k0 then some v0 else dictFind rest k

/-- Python `d.get(k, dflt)`. -/
def dictGetD [DecidableEq α] (d : List (α × β)) (k : α) (dflt : β) : β :=
  (dictFind d k).getD dflt

/-- Python `d[k] = v`: update in place when the key exists (keeping its
position), otherwise append the new key at the end. -/
def dictSet [DecidableEq α] : List (α × β) → α → β → List (α × β)
  | [], k, v => [(k, v)]
  | (k0, v0) :: rest, k, v =>
    if k = k0 then (k0, v) :: rest else (k0, v0) :: dictSet rest k v

/-- Python `d[k] = d.get(k, 0) + n` (also `Counter`'s `d[k] += n`). -/
def dictAdd [DecidableEq α] (d : List (α × Nat)) (k : α) (n : Nat) :
    List (α × Nat) :=
  dictSet d k (dictGetD d k 0 + n)

/-- The `Counter` mapping each word entry (a space-joined symbol string) to
its occurrence count. -/
abbrev Vocab := List (Str × Nat)

/-- An adjacent symbol pair, as produced by `get_stats`. -/
abbrev Pair := Str × Str

/-- Error kinds of the trainer (§7 of the spec).  `read_sentences` raises
`ValueError` for an empty corpus, named `EmptyCorpus` by the spec. -/
inductive BpeError
  | EmptyCorpus
  | CorpusNotFound
  | CorpusReadError
deriving DecidableEq

/-- `read_sentences` (lines 7-33 of the source): split each line on
whitespace, turn each non-empty word into `' '.join(list(word)) + ' </w>'`
and count it; fail with `EmptyCorpus` when nothing was parsed.  The corpus is
given as its list of lines. -/
def read_sentences (lines : List Str) : Except BpeError Vocab :=
  let vocab := lines.foldl
    (fun acc line =>
      (splitWs line).foldl (fun acc2 word => dictAdd acc2 (tokenizeWord word) 1) acc)
    []
  if vocab = [] then .error .EmptyCorpus else .ok vocab

/-- The adjacent pairs `(symbols[i], symbols[i+1])` for `i` in
`range(len(symbols) - 1)`, in order. -/
def wordPairs : List Str → List Pair
  | [] => []
  | [_] => []
  | a :: b :: rest => (a, b) :: wordPairs (b :: rest)

/-- `get_stats` (lines 36-46): for each vocabulary entry in insertion order,
add the entry's count to every adjacent symbol pair of `word.split()`. -/
def get_stats (vocab : Vocab) : List (Pair × Nat) :=
  vocab.foldl
    (fun pairs e =>
      (wordPairs (splitWs e.1)).foldl (fun ps pr => dictAdd ps pr e.2) pairs)
    []

/-- The negative lookbehind `(?<!\S)`: succeeds at the start of the string or
after a whitespace character. -/
def precOK : Option Char → Bool
  | none => true
  | some c => isSpacePy c

/-- The negative lookahead `(?!\S)`: succeeds at the end of the string or
before a whitespace character. -/
def followOK : Str → Bool
  | [] => true
  | c :: _ => isSpacePy c

/-- Python `re.sub` for the pattern `(?<!\S)` + `re.escape(pat)` + `(?!\S)`:
scan left to right; at each position, if the preceding character satisfies the
lookbehind, the literal `pat` matches and the following character satisfies
the lookahead, emit `rep` and resume after the match, else emit the current
character.  `prev` is the original character preceding the current position
(`none` at the start).  The `pat ≠ []` conjunct only serves the termination
argument; `merge_vocab` always passes a pattern containing `' '`, hence
non-empty. -/
def reSubAux (pat rep : Str) : Option Char → Str → Str
  | _, [] => []
  | prev, c :: rest =>
    if h : pat ≠ [] ∧ precOK prev = true ∧ pat.isPrefixOf (c :: rest) = true
        ∧ followOK (List.drop pat.length (c :: rest)) = true then
      rep ++ reSubAux pat rep (some (pat.getLast h.1)) (List.drop pat.length (c :: rest))
    else
      c :: reSubAux pat rep (some c) rest
termination_by _ s => s.length
decreasing_by
  · have hp : 0 < pat.length := List.length_pos.mpr h.1
    simp only [List.length_drop, List.length_cons]
    omega
  · simp only [List.length_cons]
    omega

/-- Line 62 of the source: `pattern.sub(''.join(pair), word)` where the
pattern is `(?<!\S)` + `re.escape(' '.join(pair))` + `(?!\S)`. -/
def mergeWord (pair : Pair) (word : Str) : Str :=
  reSubAux (pair.1 ++ ' ' :: pair.2) (pair.1 ++ pair.2) none word

/-- `merge_vocab` (lines 49-67): rewrite every entry with the regex
substitution and store its count with `vocab_new[new_word] = freq` (the
source's two branches assign the same key and value, so they are one
operation here). -/
def merge_vocab (pair : Pair) (vocab : Vocab) : Vocab :=
  vocab.foldl (fun acc e => dictSet acc (mergeWord pair e.1) e.2) []

/-- Python `max(iterable, key=...)` keeps the first element encountered among
the maximal ones; `best` is the current best key-value pair. -/
def pyMaxAux (best : Pair × Nat) : List (Pair × Nat) → Pair
  | [] => best.1
  | kv :: rest => if kv.2 > best.2 then pyMaxAux kv rest else pyMaxAux best rest

/-- Line 87 of the source: `max(pairs, key=pairs.get)`, iterating the dict's
keys in insertion order; `none` on an empty dict (the source guards with
`if not pairs`). -/
def pyMax : List (Pair × Nat) → Option Pair
  | [] => none
  | kv :: rest => some (pyMaxAux kv rest)

/-- The training loop of `learn_bpe` (lines 80-91): up to the given budget,
compute statistics, stop when they are empty, otherwise select the best pair,
append it to the learned rules and rewrite the vocabulary. -/
def learnLoop : Nat → Vocab → List Pair → List Pair × Vocab
  | 0, vocab, merges => (merges, vocab)
  | n + 1, vocab, merges =>
    match get_stats vocab with
    | [] => (merges, vocab)
    | kv :: rest =>
      let best := pyMaxAux kv rest
      learnLoop n (merge_vocab best vocab) (merges ++ [best])

/-- Lines 97-99: the persisted rules file, `f"{pair[0]} {pair[1]}\n"` per
rule, in learned order. -/
def writeRules (merges : List Pair) : Str :=
  merges.foldl (fun acc p => acc ++ p.1 ++ ' ' :: p.2 ++ ['\n']) []

/-- `learn_bpe` (lines 70-102): read the corpus, run the training loop, and
persist the learned rules; returns the rules, the final vocabulary and the
persisted file content. -/
def learn_bpe (lines : List Str) (numMerges : Nat) :
    Except BpeError (List Pair × Vocab × Str) :=
  match read_sentences lines with
  | .error e => .error e
  | .ok vocab =>
    let r := learnLoop numMerges vocab []
    .ok (r.1, r.2, writeRules r.1)

/-- Modelled from the spec (§4.4, design note §9): the reference rewrite
that scans the entry's symbol sequence and replaces every non-overlapping,
maximal left-to-right occurrence of the pair — matched as two whole adjacent
symbols — with the single fused symbol. -/
def specMergeSymbols (p1 p2 : Str) : List Str → List Str
  | [] => []
  | [s] => [s]
  | s1 :: s2 :: rest =>
    if s1 = p1 ∧ s2 = p2 then (p1 ++ p2) :: specMergeSymbols p1 p2 rest
    else s1 :: specMergeSymbols p1 p2 (s2 :: rest)

/-- Modelled from the spec (§4.4): the reference Vocabulary Rewriter, using
the symbol-sequence scan in place of the regex substitution, with the same
per-entry count handling as the source. -/
def specMergeVocabScan (pair : Pair) (vocab : Vocab) : Vocab :=
  vocab.foldl
    (fun acc e =>
      dictSet acc (joinSpace (specMergeSymbols pair.1 pair.2 (splitWs e.1))) e.2)
    []

/-- Modelled from the spec (§3, §4.4): the number of non-overlapping
left-to-right occurrences of the pair in a symbol sequence. -/
def nonOverlapCount (p1 p2 : Str) : List Str → Nat
  | [] => 0
  | [_] => 0
  | s1 :: s2 :: rest =>
    if s1 = p1 ∧ s2 = p2 then nonOverlapCount p1 p2 rest + 1
    else nonOverlapCount p1 p2 (s2 :: rest)

/-- The sum of occurrence counts across the vocabulary. -/
def vocabTotal (v : Vocab) : Nat := (v.map (fun e => e.2)).sum

/-- The number of non-empty whitespace-delimited tokens in the corpus. -/
def corpusTokens (lines : List Str) : Nat :=
  (lines.map (fun l => (splitWs l).length)).sum

/-- A well-formed symbol: non-empty and containing no whitespace
(spec §6: symbols never contain a literal space). -/
def SymOK (s : Str) : Prop := s ≠ [] ∧ ∀ c ∈ s, isSpacePy c = false

/-- A well-formed word entry string: it round-trips through `splitWs` and
`joinSpace`, i.e. it is the space-joined form of its symbol sequence. -/
def WordWF (w : Str) : Prop := joinSpace (splitWs w) = w

/-- Every key of the vocabulary is a well-formed word entry string. -/
def VocabWF (v : Vocab) : Prop := ∀ e ∈ v, WordWF e.1

instance (s : Str) : Decidable (SymOK s) := by
  unfold SymOK; infer_instance

instance (w : Str) : Decidable (WordWF w) := by
  unfold WordWF; infer_instance

instance (v : Vocab) : Decidable (VocabWF v) := by
  unfold VocabWF WordWF; exact List.decidableBAll _ v

/-! ### Dictionary lemmas -/

theorem dictFind_dictSet_self [DecidableEq α] (d : List (α × β)) (k : α) (v : β) :
    dictFind (dictSet d k v) k = some v := by
  induction d with
  | nil => simp [dictSet, dictFind]
  | cons e rest ih =>
    by_cases h : k = e.1
    · simp [dictSet, dictFind, h]
    · simp [dictSet, dictFind, h, ih]

theorem dictFind_dictSet_ne [DecidableEq α] (d : List (α × β)) (k k' : α) (v : β)
    (h : k' ≠ k) : dictFind (dictSet d k v) k' = dictFind d k' := by
  induction d with
  | nil => simp [dictSet, dictFind, h]
  | cons e rest ih =>
    by_cases h0 : k = e.1
    · subst h0
      simp [dictSet, dictFind, h]
    · by_cases h1 : k' = e.1
      · simp [dictSet, dictFind, h0, h1]
      · simp [dictSet, dictFind, h0, h1, ih]

theorem dictGetD_dictAdd [DecidableEq α] (d : List (α × Nat)) (k k' : α) (n : Nat) :
    dictGetD (dictAdd d k n) k' 0
      = dictGetD d k' 0 + (if k' = k then n else 0) := by
  by_cases h : k' = k
  · subst h
    simp [dictAdd, dictGetD, dictFind_dictSet_self]
  · simp [dictAdd, dictGetD, dictFind_dictSet_ne _ _ _ _ h, h]

/-- Membership in `dictSet`: any entry either carries the written key or was
already present. -/
theorem mem_dictSet [DecidableEq α] (d : List (α × β)) (k : α) (v : β)
    (e : α × β) (he : e ∈ dictSet d k v) : e.1 = k ∨ e ∈ d := by
  induction d with
  | nil =>
    simp [dictSet] at he
    simp [he]
  | cons e0 rest ih =>
    by_cases h : k = e0.1
    · subst h
      simp [dictSet] at he
      rcases he with he | he
      · simp [he]
      · simp [he]
    · simp [dictSet, h] at he
      rcases he with he | he
      · simp [he]
      · rcases ih he with h1 | h1
        · exact Or.inl h1
        · simp [h1]

/-- The key list of `dictSet`: unchanged when the key exists, extended by the
key otherwise. -/
theorem dictSet_keys [DecidableEq α] (d : List (α × β)) (k : α) (v : β) :
    (dictSet d k v).map Prod.fst
      = if k ∈ d.map Prod.fst then d.map Prod.fst else d.map Prod.fst ++ [k] := by
  induction d with
  | nil => simp [dictSet]
  | cons e rest ih =>
    by_cases h : k = e.1
    · simp [dictSet, h]
    · by_cases h2 : k ∈ rest.map Prod.fst
      · simp [dictSet, h, ih, h2, Ne.symm h]
      · simp [dictSet, h, ih, h2, Ne.symm h]

theorem dictSet_keys_nodup [DecidableEq α] (d : List (α × β)) (k : α) (v : β)
    (h : (d.map Prod.fst).Nodup) : ((dictSet d k v).map Prod.fst).Nodup := by
  rw [dictSet_keys]
  by_cases h2 : k ∈ d.map Prod.fst
  · simp [h2, h]
  · simp [h2, List.nodup_append, h]

theorem dictFind_eq_none [DecidableEq α] (d : List (α × β)) (k : α)
    (h : k ∉ d.map Prod.fst) : dictFind d k = none := by
  induction d with
  | nil => rfl
  | cons e rest ih =>
    rw [List.map_cons, List.mem_cons] at h
    push_neg at h
    simp [dictFind, h.1, ih h.2]

/-- With duplicate-free keys, a found key occurs in exactly one entry. -/
theorem countP_key_of_nodup [DecidableEq α] (d : List (α × β)) (k : α)
    (hnd : (d.map Prod.fst).Nodup) (c : β) (hf : dictFind d k = some c) :
    d.countP (fun e => e.1 = k) = 1 := by
  induction d with
  | nil => simp [dictFind] at hf
  | cons e rest ih =>
    rw [List.map_cons, List.nodup_cons] at hnd
    by_cases h : k = e.1
    · have hnotin : k ∉ rest.map Prod.fst := by rw [h]; exact hnd.1
      have h1 : rest.countP (fun e => e.1 = k) = 0 := by
        rw [List.countP_eq_zero]
        intro a ha
        simp only [decide_eq_true_eq]
        intro hk
        exact hnotin (List.mem_map.mpr ⟨a, ha, hk⟩)
      rw [List.countP_cons]
      simp [h1, h.symm]
    · rw [List.countP_cons]
      have hf2 : dictFind rest k = some c := by
        simpa [dictFind, h] using hf
      simp [ih hnd.2 hf2, Ne.symm h]

/-! ### splitWs / joinSpace lemmas -/

theorem joinSpace_cons (s : Str) (rest : List Str) (h : rest ≠ []) :
    joinSpace (s :: rest) = s ++ ' ' :: joinSpace rest := by
  cases rest with
  | nil => exact absurd rfl h
  | cons t r => rfl

theorem joinSpace_append_single (l : List Str) (x : Str) (h : l ≠ []) :
    joinSpace (l ++ [x]) = joinSpace l ++ ' ' :: x := by
  induction l with
  | nil => exact absurd rfl h
  | cons s rest ih =>
    cases rest with
    | nil => rfl
    | cons t r =>
      rw [List.cons_append, joinSpace_cons s ((t :: r) ++ [x]) (by simp),
        joinSpace_cons s (t :: r) (by simp), ih (by simp)]
      simp

theorem splitWsAux_parts (s : Str) : ∀ cur : Str, (∀ c ∈ cur, isSpacePy c = false) →
    ∀ x ∈ splitWsAux cur s, SymOK x := by
  induction s with
  | nil =>
    intro cur hcur x hx
    by_cases h : cur = []
    · simp [splitWsAux, h] at hx
    · simp [splitWsAux, h] at hx
      subst hx
      refine ⟨by simpa using h, ?_⟩
      intro c hc
      exact hcur c (List.mem_reverse.mp hc)
  | cons c rest ih =>
    intro cur hcur x hx
    by_cases hsp : isSpacePy c = true
    · by_cases h : cur = []
      · simp [splitWsAux, hsp, h] at hx
        exact ih [] (by simp) x hx
      · simp [splitWsAux, hsp, h] at hx
        rcases hx with hx | hx
        · subst hx
          refine ⟨by simpa using h, ?_⟩
          intro c2 hc2
          exact hcur c2 (List.mem_reverse.mp hc2)
        · exact ih [] (by simp) x hx
    · rw [Bool.not_eq_true] at hsp
      simp only [splitWsAux, hsp, Bool.false_eq_true, if_false] at hx
      refine ih (c :: cur) ?_ x hx
      intro c2 hc2
      rcases List.mem_cons.mp hc2 with h2 | h2
      · rw [h2]; exact hsp
      · exact hcur c2 h2

theorem splitWs_SymOK (s : Str) : ∀ x ∈ splitWs s, SymOK x :=
  splitWsAux_parts s [] (by simp)

theorem splitWsAux_through (s : Str) : ∀ (cur t : Str),
    (∀ c ∈ s, isSpacePy c = false) →
    splitWsAux cur (s ++ t) = splitWsAux (s.reverse ++ cur) t := by
  induction s with
  | nil => intro cur t _; simp
  | cons c rest ih =>
    intro cur t hs
    have hc : isSpacePy c = false := hs c (by simp)
    show splitWsAux cur (c :: (rest ++ t)) = _
    simp only [splitWsAux, hc, Bool.false_eq_true, if_false]
    rw [ih (c :: cur) t (fun c2 hc2 => hs c2 (List.mem_cons_of_mem _ hc2))]
    simp

theorem splitWsAux_space_step (cur rest : Str) :
    splitWsAux cur (' ' :: rest)
      = if cur = [] then splitWsAux [] rest else cur.reverse :: splitWsAux [] rest := by
  have h : isSpacePy ' ' = true := by decide
  simp [splitWsAux, h]

theorem splitWs_joinSpace : ∀ ss : List Str, (∀ s ∈ ss, SymOK s) →
    splitWs (joinSpace ss) = ss := by
  intro ss
  induction ss with
  | nil => intro _; rfl
  | cons s rest ih =>
    intro h
    have hs : SymOK s := h s (by simp)
    cases rest with
    | nil =>
      have h1 := splitWsAux_through s [] [] hs.2
      rw [List.append_nil] at h1
      show splitWsAux [] (joinSpace [s]) = [s]
      have h2 : joinSpace [s] = s := rfl
      rw [h2, h1]
      simp [splitWsAux, hs.1]
    | cons t r =>
      have hrest : splitWsAux [] (joinSpace (t :: r)) = t :: r :=
        ih (fun x hx => h x (List.mem_cons_of_mem _ hx))
      rw [joinSpace_cons s (t :: r) (by simp)]
      show splitWsAux [] (s ++ ' ' :: joinSpace (t :: r)) = s :: (t :: r)
      rw [splitWsAux_through s [] (' ' :: joinSpace (t :: r)) hs.2,
        splitWsAux_space_step, if_neg (by simpa using hs.1), hrest]
      simp

theorem WordWF_joinSpace (ss : List Str) (h : ∀ s ∈ ss, SymOK s) :
    WordWF (joinSpace ss) := by
  unfold WordWF
  rw [splitWs_joinSpace ss h]

/-! ### Characterizing regex matches over space-joined symbol strings -/

theorem ne_space_of_nospace {c : Char} (h : isSpacePy c = false) : c ≠ ' ' := by
  intro e
  subst e
  simp [isSpacePy] at h

theorem isPrefixOf_append_self (l t : Str) : l.isPrefixOf (l ++ t) = true := by
  induction l with
  | nil => simp [List.isPrefixOf]
  | cons a as ih => simp [List.isPrefixOf, ih]

/-- A pattern containing a space is never a prefix of a space-free string. -/
theorem not_isPrefixOf_nospace (p1 : Str) (u : Str) : ∀ s : Str,
    (∀ c ∈ s, isSpacePy c = false) → (p1 ++ ' ' :: u).isPrefixOf s = false := by
  induction p1 with
  | nil =>
    intro s hs
    cases s with
    | nil => simp [List.isPrefixOf]
    | cons c s2 =>
      have : c ≠ ' ' := ne_space_of_nospace (hs c (by simp))
      simp [List.isPrefixOf, Ne.symm this]
  | cons a p1t ih =>
    intro s hs
    cases s with
    | nil => simp [List.isPrefixOf]
    | cons c s2 =>
      simp only [List.cons_append, List.isPrefixOf, Bool.and_eq_false_iff]
      exact Or.inr (ih s2 (fun c2 hc2 => hs c2 (List.mem_cons_of_mem _ hc2)))

/-- A block pattern `a ++ ' ' :: u` matches a block string `s ++ ' ' :: v`
exactly when the space-free blocks agree and matching continues after the
separator. -/
theorem isPrefixOf_block (u v : Str) : ∀ a s : Str,
    (∀ c ∈ a, isSpacePy c = false) → (∀ c ∈ s, isSpacePy c = false) →
    ((a ++ ' ' :: u).isPrefixOf (s ++ ' ' :: v) = true ↔ a = s ∧ u.isPrefixOf v = true) := by
  intro a
  induction a with
  | nil =>
    intro s ha hs
    cases s with
    | nil => simp [List.isPrefixOf]
    | cons c s2 =>
      have : c ≠ ' ' := ne_space_of_nospace (hs c (by simp))
      simp [List.isPrefixOf, Ne.symm this]
  | cons x a2 ih =>
    intro s ha hs
    cases s with
    | nil =>
      have : x ≠ ' ' := ne_space_of_nospace (ha x (by simp))
      simp [List.isPrefixOf, this]
    | cons c s2 =>
      simp only [List.cons_append, List.isPrefixOf, Bool.and_eq_true, beq_iff_eq,
        List.append_eq]
      rw [ih s2 (fun c2 hc2 => ha c2 (List.mem_cons_of_mem _ hc2))
        (fun c2 hc2 => hs c2 (List.mem_cons_of_mem _ hc2))]
      constructor
      · rintro ⟨h1, h2, h3⟩
        exact ⟨by rw [h1, h2], h3⟩
      · rintro ⟨h1, h2⟩
        rcases List.cons.injEq .. ▸ h1 with h
        exact ⟨(List.cons.inj h1).1, (List.cons.inj h1).2, h2⟩

/-- Matching the second half `p2` of the pattern against the remaining
symbols: with the lookahead, it succeeds exactly when `p2` is the whole next
symbol. -/
theorem tail_match (p2 : Str) : ∀ (t k : Str),
    (∀ c ∈ p2, isSpacePy c = false) → (∀ c ∈ t, isSpacePy c = false) →
    (k = [] ∨ ∃ j, k = ' ' :: j) →
    ((p2.isPrefixOf (t ++ k) = true ∧ followOK (List.drop p2.length (t ++ k)) = true)
      ↔ p2 = t) := by
  induction p2 with
  | nil =>
    intro t k _ ht hk
    cases t with
    | nil =>
      simp only [List.isPrefixOf, List.length_nil, List.drop_zero, List.nil_append]
      rcases hk with hk | ⟨j, hk⟩ <;> subst hk <;> simp [followOK, isSpacePy]
    | cons c t2 =>
      have : isSpacePy c = false := ht c (by simp)
      simp [List.isPrefixOf, followOK, this]
  | cons a p2t ih =>
    intro t k hp ht hk
    cases t with
    | nil =>
      rcases hk with hk | ⟨j, hk⟩ <;> subst hk
      · simp [List.isPrefixOf]
      · have : a ≠ ' ' := ne_space_of_nospace (hp a (by simp))
        simp [List.isPrefixOf, this]
    | cons c t2 =>
      simp only [List.cons_append, List.isPrefixOf, Bool.and_eq_true, beq_iff_eq,
        List.length_cons, List.drop_succ_cons, List.append_eq]
      rw [and_assoc, ih t2 k (fun c2 hc2 => hp c2 (List.mem_cons_of_mem _ hc2))
        (fun c2 hc2 => ht c2 (List.mem_cons_of_mem _ hc2)) hk]
      constructor
      · rintro ⟨h1, h2⟩
        rw [h1, h2]
      · intro h
        exact ⟨(List.cons.inj h).1, (List.cons.inj h).2⟩

theorem reSubAux_nil (pat rep : Str) (prev : Option Char) :
    reSubAux pat rep prev [] = [] := by
  simp only [reSubAux]

theorem reSubAux_match (pat rep : Str) (prev : Option Char) (c : Char) (rest : Str)
    (h : pat ≠ [] ∧ precOK prev = true ∧ pat.isPrefixOf (c :: rest) = true
        ∧ followOK (List.drop pat.length (c :: rest)) = true) :
    reSubAux pat rep prev (c :: rest)
      = rep ++ reSubAux pat rep (some (pat.getLast h.1)) (List.drop pat.length (c :: rest)) := by
  conv_lhs => rw [reSubAux]
  rw [dif_pos h]

theorem reSubAux_nomatch (pat rep : Str) (prev : Option Char) (c : Char) (rest : Str)
    (h : ¬(pat ≠ [] ∧ precOK prev = true ∧ pat.isPrefixOf (c :: rest) = true
        ∧ followOK (List.drop pat.length (c :: rest)) = true)) :
    reSubAux pat rep prev (c :: rest) = c :: reSubAux pat rep (some c) rest := by
  conv_lhs => rw [reSubAux]
  rw [dif_neg h]

/-- Scanning past a whitespace character: the pattern starts with a
non-whitespace character, so no match begins at a space. -/
theorem reSubAux_space (pat rep : Str) (a : Char) (pr : Str) (hpa : pat = a :: pr)
    (ha : isSpacePy a = false) (prev : Option Char) (y : Str) :
    reSubAux pat rep prev (' ' :: y) = ' ' :: reSubAux pat rep (some ' ') y := by
  apply reSubAux_nomatch
  rintro ⟨-, -, hpre, -⟩
  rw [hpa] at hpre
  simp only [List.isPrefixOf, Bool.and_eq_true, beq_iff_eq] at hpre
  exact ne_space_of_nospace ha hpre.1

/-- Scanning past a whole space-free symbol on which no match starts: each
later position inside the symbol has a non-whitespace preceding character, so
the lookbehind rules it out. -/
theorem reSubAux_skip (pat rep : Str) : ∀ s : Str, s ≠ [] →
    (∀ c ∈ s, isSpacePy c = false) → ∀ (x : Str) (prev : Option Char),
    ¬(pat ≠ [] ∧ precOK prev = true ∧ pat.isPrefixOf (s ++ x) = true
        ∧ followOK (List.drop pat.length (s ++ x)) = true) →
    ∃ c0, isSpacePy c0 = false
      ∧ reSubAux pat rep prev (s ++ x) = s ++ reSubAux pat rep (some c0) x := by
  intro s
  induction s with
  | nil => intro h; exact absurd rfl h
  | cons c s2 ih =>
    intro _ hsc x prev hnm
    have hc : isSpacePy c = false := hsc c (by simp)
    cases s2 with
    | nil =>
      refine ⟨c, hc, ?_⟩
      rw [List.cons_append, List.nil_append]
      rw [List.cons_append, List.nil_append] at hnm
      rw [reSubAux_nomatch pat rep prev c x hnm]
      simp
    | cons d s3 =>
      rw [List.cons_append] at hnm ⊢
      rw [reSubAux_nomatch pat rep prev c ((d :: s3) ++ x) hnm]
      have hnm2 : ¬(pat ≠ [] ∧ precOK (some c) = true
          ∧ pat.isPrefixOf ((d :: s3) ++ x) = true
          ∧ followOK (List.drop pat.length ((d :: s3) ++ x)) = true) := by
        rintro ⟨-, hprec, -, -⟩
        rw [precOK, hc] at hprec
        exact absurd hprec (by simp)
      rcases ih (by simp) (fun c2 hc2 => hsc c2 (List.mem_cons_of_mem _ hc2))
        x (some c) hnm2 with ⟨c0, hc0, heq⟩
      exact ⟨c0, hc0, by rw [heq]; simp⟩

theorem drop_len_plus (l : List α) (x : List α) (n : Nat) :
    List.drop (l.length + n) (l ++ x) = List.drop n x := by
  induction l with
  | nil => simp
  | cons a as ih => simp [Nat.succ_add, ih]

theorem specMergeSymbols_ne_nil (p1 p2 : Str) (ss : List Str) (h : ss ≠ []) :
    specMergeSymbols p1 p2 ss ≠ [] := by
  cases ss with
  | nil => exact absurd rfl h
  | cons s rest =>
    cases rest with
    | nil => simp [specMergeSymbols]
    | cons t r =>
      by_cases hm : s = p1 ∧ t = p2 <;> simp [specMergeSymbols, hm]

/-- A match at the head of the space-joined string consuming the whole
pattern. -/
theorem reSubAux_match_append (pat rep : Str) (prev : Option Char) (k : Str)
    (hpat : pat ≠ []) (hprev : precOK prev = true) (hfol : followOK k = true) :
    reSubAux pat rep prev (pat ++ k)
      = rep ++ reSubAux pat rep (some (pat.getLast hpat)) k := by
  cases pat with
  | nil => exact absurd rfl hpat
  | cons a pr =>
    have h1 : (a :: pr) ++ k = a :: (pr ++ k) := rfl
    have hcond : (a :: pr) ≠ [] ∧ precOK prev = true
        ∧ (a :: pr).isPrefixOf (a :: (pr ++ k)) = true
        ∧ followOK (List.drop (a :: pr).length (a :: (pr ++ k))) = true := by
      refine ⟨by simp, hprev, ?_, ?_⟩
      · rw [← h1]
        exact isPrefixOf_append_self _ _
      · rw [← h1, List.drop_left]
        exact hfol
    rw [h1, reSubAux_match _ _ _ _ _ hcond]
    have hdrop : List.drop (a :: pr).length (a :: (pr ++ k)) = k := by
      rw [← h1, List.drop_left]
    have hgen : ∀ (hq : a :: pr ≠ []) (l : Str), l = k →
        rep ++ reSubAux (a :: pr) rep (some ((a :: pr).getLast hq)) l
          = rep ++ reSubAux (a :: pr) rep (some ((a :: pr).getLast hpat)) k := by
      intro hq l hl
      subst hl
      rfl
    exact hgen _ _ hdrop

/-- A successful regex match at the start of a space-joined symbol sequence
forces the first symbol to be `p1` and the second to be `p2`. -/
theorem match_start (p1 p2 : Str) (hp2 : SymOK p2)
    (s t : Str) (rest : List Str) (hs : SymOK s) (ht : SymOK t)
    (hnos1 : ∀ c ∈ p1, isSpacePy c = false)
    (hpre : (p1 ++ ' ' :: p2).isPrefixOf (joinSpace (s :: t :: rest)) = true)
    (hfol : followOK (List.drop (p1 ++ ' ' :: p2).length
      (joinSpace (s :: t :: rest))) = true) :
    s = p1 ∧ t = p2 := by
  obtain ⟨k, hk, hJ⟩ : ∃ k, (k = [] ∨ ∃ j, k = ' ' :: j)
      ∧ joinSpace (t :: rest) = t ++ k := by
    cases rest with
    | nil => exact ⟨[], Or.inl rfl, by simp [joinSpace]⟩
    | cons r rs =>
      exact ⟨' ' :: joinSpace (r :: rs), Or.inr ⟨_, rfl⟩, joinSpace_cons _ _ (by simp)⟩
  rw [joinSpace_cons s (t :: rest) (by simp), hJ] at hpre hfol
  have hblock := (isPrefixOf_block p2 (t ++ k) p1 s hnos1 hs.2).mp hpre
  have hlen : (p1 ++ ' ' :: p2).length = (p1 ++ [' ']).length + p2.length := by
    simp [List.length_append]
    omega
  have hstr2 : s ++ ' ' :: (t ++ k) = (p1 ++ [' ']) ++ (t ++ k) := by
    rw [← hblock.1]
    simp
  rw [hstr2, hlen, drop_len_plus] at hfol
  have ht2 := (tail_match p2 t k hp2.2 ht.2 hk).mp ⟨hblock.2, hfol⟩
  exact ⟨hblock.1.symm, ht2.symm⟩

/-- Main equivalence at the word level: the regex substitution over the
space-joined string computes the symbol-sequence scan. -/
theorem reSub_joinSpace (p1 p2 : Str) (hp1 : SymOK p1) (hp2 : SymOK p2) :
    ∀ n : Nat, ∀ ss : List Str, ss.length ≤ n → (∀ s ∈ ss, SymOK s) →
    ∀ prev : Option Char, precOK prev = true →
    reSubAux (p1 ++ ' ' :: p2) (p1 ++ p2) prev (joinSpace ss)
      = joinSpace (specMergeSymbols p1 p2 ss) := by
  obtain ⟨a1, pr1, hp1e⟩ : ∃ a pr, p1 = a :: pr := by
    cases p1 with
    | nil => exact absurd rfl hp1.1
    | cons a pr => exact ⟨a, pr, rfl⟩
  have ha1 : isSpacePy a1 = false := hp1.2 a1 (by rw [hp1e]; simp)
  have hpatne : (p1 ++ ' ' :: p2) ≠ [] := by
    rw [hp1e]; simp
  have hpathead : p1 ++ ' ' :: p2 = a1 :: (pr1 ++ ' ' :: p2) := by
    rw [hp1e]; rfl
  intro n
  induction n with
  | zero =>
    intro ss hlen _ prev _
    have hss : ss = [] := List.length_eq_zero.mp (Nat.le_zero.mp hlen)
    subst hss
    simp [joinSpace, specMergeSymbols, reSubAux_nil]
  | succ n ih =>
    intro ss hlen hss prev hprev
    cases ss with
    | nil => simp [joinSpace, specMergeSymbols, reSubAux_nil]
    | cons s ss2 =>
      cases ss2 with
      | nil =>
        have hs : SymOK s := hss s (by simp)
        have hnm : ¬((p1 ++ ' ' :: p2) ≠ [] ∧ precOK prev = true
            ∧ (p1 ++ ' ' :: p2).isPrefixOf (s ++ []) = true
            ∧ followOK (List.drop (p1 ++ ' ' :: p2).length (s ++ [])) = true) := by
          rintro ⟨-, -, hpre, -⟩
          rw [List.append_nil, not_isPrefixOf_nospace p1 p2 s hs.2] at hpre
          exact absurd hpre (by simp)
        obtain ⟨c0, hc0, heq⟩ :=
          reSubAux_skip (p1 ++ ' ' :: p2) (p1 ++ p2) s hs.1 hs.2 [] prev hnm
        rw [List.append_nil] at heq
        show reSubAux (p1 ++ ' ' :: p2) (p1 ++ p2) prev (joinSpace [s]) = _
        have hj : joinSpace [s] = s := rfl
        rw [hj, heq, reSubAux_nil, List.append_nil]
        rfl
      | cons t rest =>
        have hs : SymOK s := hss s (by simp)
        have ht : SymOK t := hss t (by simp)
        by_cases hm : s = p1 ∧ t = p2
        · obtain ⟨hm1, hm2⟩ := hm
          subst hm1
          subst hm2
          cases rest with
          | nil =>
            have hstr : joinSpace [s, t] = (s ++ ' ' :: t) ++ [] := by
              rw [List.append_nil]
              rfl
            rw [hstr, reSubAux_match_append _ _ _ _ hpatne hprev (by simp [followOK]),
              reSubAux_nil, List.append_nil]
            simp [specMergeSymbols, joinSpace]
          | cons r rs =>
            have hstr : joinSpace (s :: t :: r :: rs)
                = (s ++ ' ' :: t) ++ (' ' :: joinSpace (r :: rs)) := by
              rw [joinSpace_cons s _ (by simp), joinSpace_cons t _ (by simp)]
              simp
            rw [hstr, reSubAux_match_append _ _ _ _ hpatne hprev
              (by simp [followOK, isSpacePy]),
              reSubAux_space _ _ a1 _ hpathead ha1,
              ih (r :: rs) (by simp at hlen ⊢; omega)
                (fun x hx => hss x (by simp at hx ⊢; tauto))
                (some ' ') (by simp [precOK, isSpacePy])]
            have hspec : specMergeSymbols s t (s :: t :: r :: rs)
                = (s ++ t) :: specMergeSymbols s t (r :: rs) := by
              simp [specMergeSymbols]
            rw [hspec, joinSpace_cons _ _ (specMergeSymbols_ne_nil _ _ _ (by simp))]
        · have hnm : ¬((p1 ++ ' ' :: p2) ≠ [] ∧ precOK prev = true
              ∧ (p1 ++ ' ' :: p2).isPrefixOf (s ++ ' ' :: joinSpace (t :: rest)) = true
              ∧ followOK (List.drop (p1 ++ ' ' :: p2).length
                (s ++ ' ' :: joinSpace (t :: rest))) = true) := by
            rintro ⟨-, -, hpre, hfol⟩
            rw [← joinSpace_cons s (t :: rest) (by simp)] at hpre hfol
            exact hm (match_start p1 p2 hp2 s t rest hs ht hp1.2 hpre hfol)
          obtain ⟨c0, hc0, heq⟩ := reSubAux_skip (p1 ++ ' ' :: p2) (p1 ++ p2) s hs.1
            hs.2 (' ' :: joinSpace (t :: rest)) prev hnm
          rw [joinSpace_cons s (t :: rest) (by simp), heq,
            reSubAux_space _ _ a1 _ hpathead ha1,
            ih (t :: rest) (by simp at hlen ⊢; omega)
              (fun x hx => hss x (by simp at hx ⊢; tauto))
              (some ' ') (by simp [precOK, isSpacePy])]
          have hspec : specMergeSymbols p1 p2 (s :: t :: rest)
              = s :: specMergeSymbols p1 p2 (t :: rest) := by
            simp [specMergeSymbols, hm]
          rw [hspec, joinSpace_cons s _ (specMergeSymbols_ne_nil _ _ _ (by simp))]

/-- Word-level equivalence: on a well-formed word entry, the source's regex
substitution equals the spec's symbol-sequence scan. -/
theorem mergeWord_eq_scan (p1 p2 : Str) (hp1 : SymOK p1) (hp2 : SymOK p2)
    (w : Str) (hw : WordWF w) :
    mergeWord (p1, p2) w = joinSpace (specMergeSymbols p1 p2 (splitWs w)) := by
  unfold mergeWord
  conv_lhs => rw [← hw]
  exact reSub_joinSpace p1 p2 hp1 hp2 (splitWs w).length (splitWs w) le_rfl
    (splitWs_SymOK w) none rfl

/-- Vocabulary-level equivalence: on a well-formed vocabulary, `merge_vocab`
equals the spec's reference rewriter. -/
theorem merge_vocab_eq_spec (p1 p2 : Str) (hp1 : SymOK p1) (hp2 : SymOK p2)
    (v : Vocab) (hv : VocabWF v) :
    merge_vocab (p1, p2) v = specMergeVocabScan (p1, p2) v := by
  unfold merge_vocab specMergeVocabScan
  have hgen : ∀ (v2 : Vocab), (∀ e ∈ v2, WordWF e.1) → ∀ acc : Vocab,
      v2.foldl (fun acc e => dictSet acc (mergeWord (p1, p2) e.1) e.2) acc
        = v2.foldl (fun acc e =>
            dictSet acc (joinSpace (specMergeSymbols p1 p2 (splitWs e.1))) e.2) acc := by
    intro v2
    induction v2 with
    | nil => intro _ acc; rfl
    | cons e rest ih =>
      intro h2 acc
      simp only [List.foldl_cons]
      rw [mergeWord_eq_scan p1 p2 hp1 hp2 e.1 (h2 e (by simp))]
      exact ih (fun x hx => h2 x (List.mem_cons_of_mem _ hx)) _
  exact hgen v hv []

/-! ### Pair-statistics value characterization -/

theorem dictGetD_foldl_dictAdd (f : Nat) (prs : List Pair) (p : Pair) :
    ∀ acc : List (Pair × Nat),
    dictGetD (prs.foldl (fun d pr => dictAdd d pr f) acc) p 0
      = dictGetD acc p 0 + f * prs.count p := by
  induction prs with
  | nil => simp
  | cons q rest ih =>
    intro acc
    simp only [List.foldl_cons]
    rw [ih, dictGetD_dictAdd, List.count_cons]
    by_cases h : p = q
    · simp [h, Nat.mul_add, Nat.mul_succ]
      omega
    · have hbeq : (p == q) = false := beq_eq_false_iff_ne.mpr h
      simp [h, hbeq]
      exact Or.inl (fun hq => h hq.symm)

/-- The frequency `get_stats` reports for a pair: the sum over all entries of
the entry's count times the number of adjacent positions carrying the pair
(overlapping occurrences all counted). -/
theorem get_stats_value (v : Vocab) (p : Pair) :
    dictGetD (get_stats v) p 0
      = (v.map (fun e => e.2 * (wordPairs (splitWs e.1)).count p)).sum := by
  have hgen : ∀ (v2 : Vocab) (acc : List (Pair × Nat)),
      dictGetD (v2.foldl (fun pairs e =>
          (wordPairs (splitWs e.1)).foldl (fun ps pr => dictAdd ps pr e.2) pairs) acc) p 0
        = dictGetD acc p 0
          + (v2.map (fun e => e.2 * (wordPairs (splitWs e.1)).count p)).sum := by
    intro v2
    induction v2 with
    | nil => simp
    | cons e rest ih =>
      intro acc
      simp only [List.foldl_cons, List.map_cons, List.sum_cons]
      rw [ih, dictGetD_foldl_dictAdd]
      omega
  have h0 : dictGetD ([] : List (Pair × Nat)) p 0 = 0 := rfl
  rw [get_stats, hgen v [], h0, Nat.zero_add]

/-! ### Occurrence-count totals -/

theorem vocabTotal_dictAdd (d : Vocab) (k : Str) (n : Nat) :
    vocabTotal (dictAdd d k n) = vocabTotal d + n := by
  induction d with
  | nil => simp [dictAdd, dictSet, dictGetD, dictFind, vocabTotal]
  | cons e rest ih =>
    by_cases h : k = e.1
    · simp only [dictAdd, dictGetD, dictFind, h, if_pos rfl, dictSet, Option.getD_some]
      simp [vocabTotal]
      omega
    · simp only [dictAdd, dictGetD, dictFind, if_neg h, dictSet]
      have ih2 := ih
      simp only [dictAdd, dictGetD] at ih2
      simp only [vocabTotal, List.map_cons, List.sum_cons] at ih2 ⊢
      omega

theorem vocabTotal_words_fold (ws : List Str) : ∀ acc : Vocab,
    vocabTotal (ws.foldl (fun a w => dictAdd a (tokenizeWord w) 1) acc)
      = vocabTotal acc + ws.length := by
  induction ws with
  | nil => simp
  | cons w rest ih =>
    intro acc
    simp only [List.foldl_cons, List.length_cons]
    rw [ih, vocabTotal_dictAdd]
    omega

theorem vocabTotal_lines_fold (lines : List Str) : ∀ acc : Vocab,
    vocabTotal (lines.foldl (fun acc line =>
        (splitWs line).foldl (fun a w => dictAdd a (tokenizeWord w) 1) acc) acc)
      = vocabTotal acc + corpusTokens lines := by
  induction lines with
  | nil => simp [corpusTokens]
  | cons l rest ih =>
    intro acc
    simp only [List.foldl_cons]
    rw [ih, vocabTotal_words_fold]
    simp [corpusTokens]
    omega

/-- The initial vocabulary's total count is the corpus token count. -/
theorem read_sentences_total (lines : List Str) (v0 : Vocab)
    (h : read_sentences lines = .ok v0) : vocabTotal v0 = corpusTokens lines := by
  unfold read_sentences at h
  by_cases he : (lines.foldl (fun acc line =>
      (splitWs line).foldl (fun a w => dictAdd a (tokenizeWord w) 1) acc) []) = []
  · simp [he] at h
  · simp [he] at h
    rw [← h, vocabTotal_lines_fold lines []]
    simp [vocabTotal]

/-! ### Training-loop structure -/

theorem learnLoop_stats_empty (v : Vocab) (h : get_stats v = []) (n : Nat)
    (ms : List Pair) : learnLoop n v ms = (ms, v) := by
  cases n with
  | zero => rfl
  | succ n => simp [learnLoop, h]

theorem learnLoop_add (m : Nat) : ∀ (k : Nat) (v : Vocab) (ms : List Pair),
    learnLoop (k + m) v ms
      = learnLoop m (learnLoop k v ms).2 (learnLoop k v ms).1 := by
  intro k
  induction k with
  | zero =>
    intro v ms
    rw [Nat.zero_add]
    rfl
  | succ k ih =>
    intro v ms
    rw [show k + 1 + m = (k + m) + 1 from by omega]
    cases hs : get_stats v with
    | nil =>
      rw [learnLoop_stats_empty v hs, learnLoop_stats_empty v hs]
      exact (learnLoop_stats_empty v hs m ms).symm
    | cons kv rest =>
      simp only [learnLoop, hs]
      exact ih _ _

theorem learnLoop_len (n : Nat) : ∀ (v : Vocab) (ms : List Pair),
    (learnLoop n v ms).1.length ≤ ms.length + n := by
  induction n with
  | zero => intro v ms; simp [learnLoop]
  | succ n ih =>
    intro v ms
    cases hs : get_stats v with
    | nil => simp [learnLoop, hs]
    | cons kv rest =>
      simp only [learnLoop, hs]
      calc (learnLoop n (merge_vocab (pyMaxAux kv rest) v) (ms ++ [pyMaxAux kv rest])).1.length
          ≤ (ms ++ [pyMaxAux kv rest]).length + n := ih _ _
        _ ≤ ms.length + (n + 1) := by
            simp only [List.length_append, List.length_cons, List.length_nil]
            omega

/-! ### Symbol-scan facts -/

/-- Structural induction following the two-symbol window of the scan. -/
theorem twoStepInduction {motive : List Str → Prop}
    (h0 : motive []) (h1 : ∀ s, motive [s])
    (h2 : ∀ s t rest, motive rest → motive (t :: rest) → motive (s :: t :: rest)) :
    ∀ ss, motive ss := by
  have hstrong : ∀ (n : Nat) (ss : List Str), ss.length ≤ n → motive ss := by
    intro n
    induction n with
    | zero =>
      intro ss hlen
      have : ss = [] := List.length_eq_zero.mp (Nat.le_zero.mp hlen)
      rw [this]
      exact h0
    | succ n ih =>
      intro ss hlen
      cases ss with
      | nil => exact h0
      | cons s ss2 =>
        cases ss2 with
        | nil => exact h1 s
        | cons t rest =>
          exact h2 s t rest
            (ih rest (by simp only [List.length_cons] at hlen ⊢; omega))
            (ih (t :: rest) (by simp only [List.length_cons] at hlen ⊢; omega))
  exact fun ss => hstrong ss.length ss le_rfl

theorem wordPairs_cons_cons (a b : Str) (rest : List Str) :
    wordPairs (a :: b :: rest) = (a, b) :: wordPairs (b :: rest) := rfl

theorem specMergeSymbols_cons_cons (p1 p2 s t : Str) (rest : List Str) :
    specMergeSymbols p1 p2 (s :: t :: rest)
      = if s = p1 ∧ t = p2 then (p1 ++ p2) :: specMergeSymbols p1 p2 rest
        else s :: specMergeSymbols p1 p2 (t :: rest) := rfl

theorem nonOverlapCount_cons_cons (p1 p2 s t : Str) (rest : List Str) :
    nonOverlapCount p1 p2 (s :: t :: rest)
      = if s = p1 ∧ t = p2 then nonOverlapCount p1 p2 rest + 1
        else nonOverlapCount p1 p2 (t :: rest) := rfl

theorem specMergeSymbols_length (p1 p2 : Str) : ∀ ss : List Str,
    (specMergeSymbols p1 p2 ss).length + nonOverlapCount p1 p2 ss = ss.length := by
  refine twoStepInduction ?_ ?_ ?_
  · simp [specMergeSymbols, nonOverlapCount]
  · intro s; simp [specMergeSymbols, nonOverlapCount]
  · intro s t rest ih1 ih2
    by_cases hm : s = p1 ∧ t = p2
    · rw [specMergeSymbols_cons_cons, nonOverlapCount_cons_cons, if_pos hm, if_pos hm]
      simp only [List.length_cons] at ih1 ih2 ⊢
      omega
    · rw [specMergeSymbols_cons_cons, nonOverlapCount_cons_cons, if_neg hm, if_neg hm]
      simp only [List.length_cons] at ih1 ih2 ⊢
      omega

theorem specMergeSymbols_noop (p1 p2 : Str) : ∀ ss : List Str,
    (p1, p2) ∉ wordPairs ss → specMergeSymbols p1 p2 ss = ss := by
  refine twoStepInduction ?_ ?_ ?_
  · intro _; rfl
  · intro s _; rfl
  · intro s t rest _ ih2 h
    rw [wordPairs_cons_cons] at h
    have h1 : (s, t) ≠ (p1, p2) := fun he => h (by rw [he]; simp)
    have h2 : (p1, p2) ∉ wordPairs (t :: rest) := fun he => h (by simp [he])
    have hm : ¬(s = p1 ∧ t = p2) := by
      rintro ⟨ha, hb⟩
      exact h1 (by rw [ha, hb])
    rw [specMergeSymbols_cons_cons, if_neg hm, ih2 h2]

theorem specMergeSymbols_head (p1 p2 t : Str) (rest : List Str) :
    ∃ m0 M2, specMergeSymbols p1 p2 (t :: rest) = m0 :: M2
      ∧ (m0 = t ∨ m0 = p1 ++ p2) := by
  cases rest with
  | nil => exact ⟨t, [], rfl, Or.inl rfl⟩
  | cons r rs =>
    by_cases hm : t = p1 ∧ r = p2
    · exact ⟨p1 ++ p2, specMergeSymbols p1 p2 rs,
        by rw [specMergeSymbols_cons_cons, if_pos hm], Or.inr rfl⟩
    · exact ⟨t, specMergeSymbols p1 p2 (r :: rs),
        by rw [specMergeSymbols_cons_cons, if_neg hm], Or.inl rfl⟩

/-- After the greedy scan, the merged pair no longer occurs at any adjacent
position. -/
theorem specMergeSymbols_no_pair (p1 p2 : Str) (hp1 : p1 ≠ []) (hp2 : p2 ≠ []) :
    ∀ ss : List Str, (p1, p2) ∉ wordPairs (specMergeSymbols p1 p2 ss) := by
  have hfuse1 : p1 ++ p2 ≠ p1 := by
    intro h
    have h2 := congrArg List.length h
    simp at h2
    exact hp2 h2
  have hfuse2 : p1 ++ p2 ≠ p2 := by
    intro h
    have h2 := congrArg List.length h
    simp at h2
    exact hp1 h2
  refine twoStepInduction ?_ ?_ ?_
  · simp [specMergeSymbols, wordPairs]
  · intro s; simp [specMergeSymbols, wordPairs]
  · intro s t rest ih1 ih2
    by_cases hm : s = p1 ∧ t = p2
    · rw [specMergeSymbols_cons_cons, if_pos hm]
      cases hM : specMergeSymbols p1 p2 rest with
      | nil => simp [wordPairs]
      | cons m0 M2 =>
        rw [wordPairs_cons_cons]
        intro hmem
        rcases List.mem_cons.mp hmem with he | he
        · exact hfuse1 (congrArg Prod.fst he.symm)
        · rw [hM] at ih1
          exact ih1 he
    · rw [specMergeSymbols_cons_cons, if_neg hm]
      obtain ⟨m0, M2, hhead, hm0⟩ := specMergeSymbols_head p1 p2 t rest
      rw [hhead, wordPairs_cons_cons]
      intro hmem
      rcases List.mem_cons.mp hmem with he | he
      · have hs : s = p1 := (congrArg Prod.fst he).symm
        have hm0p : m0 = p2 := (congrArg Prod.snd he).symm
        rcases hm0 with h | h
        · exact hm ⟨hs, by rw [← h, hm0p]⟩
        · exact hfuse2 (h ▸ hm0p)
      · rw [hhead] at ih2
        exact ih2 he

theorem specMergeSymbols_SymOK (p1 p2 : Str) (hp1 : SymOK p1) (hp2 : SymOK p2) :
    ∀ ss : List Str, (∀ s ∈ ss, SymOK s) → ∀ x ∈ specMergeSymbols p1 p2 ss, SymOK x := by
  have hfuse : SymOK (p1 ++ p2) := by
    refine ⟨by simp [hp1.1], ?_⟩
    intro c hc
    rcases List.mem_append.mp hc with h | h
    · exact hp1.2 c h
    · exact hp2.2 c h
  refine twoStepInduction ?_ ?_ ?_
  · intro _ x hx; simp [specMergeSymbols] at hx
  · intro s h x hx
    simp [specMergeSymbols] at hx
    rw [hx]
    exact h s (by simp)
  · intro s t rest ih1 ih2 h x hx
    by_cases hm : s = p1 ∧ t = p2
    · rw [specMergeSymbols_cons_cons, if_pos hm] at hx
      rcases List.mem_cons.mp hx with he | he
      · rw [he]; exact hfuse
      · exact ih1 (fun y hy => h y (by simp [hy])) x he
    · rw [specMergeSymbols_cons_cons, if_neg hm] at hx
      rcases List.mem_cons.mp hx with he | he
      · rw [he]; exact h s (by simp)
      · exact ih2 (fun y hy => h y (by simp at hy ⊢; tauto)) x he

/-! ### Absence of a pair from the statistics -/

theorem dictFind_foldl_dictAdd_not_mem (f : Nat) (prs : List Pair) (p : Pair)
    (h : p ∉ prs) : ∀ acc : List (Pair × Nat),
    dictFind (prs.foldl (fun d pr => dictAdd d pr f) acc) p = dictFind acc p := by
  induction prs with
  | nil => intro acc; rfl
  | cons q rest ih =>
    intro acc
    have hq : p ≠ q := fun he => h (by simp [he])
    simp only [List.foldl_cons]
    rw [ih (fun he => h (by simp [he])), dictAdd, dictFind_dictSet_ne _ _ _ _ hq]

theorem get_stats_find_none (v : Vocab) (p : Pair)
    (h : ∀ e ∈ v, p ∉ wordPairs (splitWs e.1)) :
    dictFind (get_stats v) p = none := by
  have hgen : ∀ (v2 : Vocab), (∀ e ∈ v2, p ∉ wordPairs (splitWs e.1)) →
      ∀ acc : List (Pair × Nat), dictFind acc p = none →
      dictFind (v2.foldl (fun pairs e =>
        (wordPairs (splitWs e.1)).foldl (fun ps pr => dictAdd ps pr e.2) pairs) acc) p
        = none := by
    intro v2
    induction v2 with
    | nil => intro _ acc hacc; exact hacc
    | cons e rest ih =>
      intro h2 acc hacc
      simp only [List.foldl_cons]
      refine ih (fun x hx => h2 x (List.mem_cons_of_mem _ hx)) _ ?_
      rw [dictFind_foldl_dictAdd_not_mem _ _ _ (h2 e (by simp))]
      exact hacc
  exact hgen v h [] rfl

/-! ### Structure of the rewritten vocabulary -/

theorem mem_merge_vocab (p : Pair) (v : Vocab) (e : Str × Nat)
    (he : e ∈ merge_vocab p v) : ∃ w c, (w, c) ∈ v ∧ e.1 = mergeWord p w := by
  have hgen : ∀ (v2 : Vocab) (acc : Vocab),
      ∀ e2 ∈ v2.foldl (fun acc e2 => dictSet acc (mergeWord p e2.1) e2.2) acc,
      (∃ w c, (w, c) ∈ v2 ∧ e2.1 = mergeWord p w) ∨ e2 ∈ acc := by
    intro v2
    induction v2 with
    | nil => intro acc e2 he2; exact Or.inr he2
    | cons q rest ih =>
      intro acc e2 he2
      simp only [List.foldl_cons] at he2
      rcases ih _ e2 he2 with h | h
      · obtain ⟨w, c, hw, hc⟩ := h
        exact Or.inl ⟨w, c, List.mem_cons_of_mem _ hw, hc⟩
      · rcases mem_dictSet _ _ _ _ h with h2 | h2
        · exact Or.inl ⟨q.1, q.2, by simp, h2⟩
        · exact Or.inr h2
  rcases hgen v [] e he with h | h
  · exact h
  · simp at h

theorem merge_vocab_keys_nodup (p : Pair) (v : Vocab) :
    ((merge_vocab p v).map Prod.fst).Nodup := by
  have hgen : ∀ (v2 : Vocab) (acc : Vocab), (acc.map Prod.fst).Nodup →
      ((v2.foldl (fun acc e => dictSet acc (mergeWord p e.1) e.2) acc).map Prod.fst).Nodup := by
    intro v2
    induction v2 with
    | nil => intro acc h; exact h
    | cons q rest ih =>
      intro acc h
      simp only [List.foldl_cons]
      exact ih _ (dictSet_keys_nodup _ _ _ h)
  exact hgen v [] (by simp)

/-- Looking up a key in the rewritten vocabulary finds the count of the
LAST original entry (in iteration order) whose rewrite is that key:
`vocab_new[new_word] = freq` overwrites earlier colliding entries. -/
theorem merge_vocab_find (p : Pair) (k : Str) : ∀ (v : Vocab) (acc : Vocab),
    dictFind (v.foldl (fun acc e => dictSet acc (mergeWord p e.1) e.2) acc) k
      = ((v.filter (fun e => mergeWord p e.1 == k)).getLast?).elim
          (dictFind acc k) (fun e => some e.2) := by
  intro v
  induction v with
  | nil => intro acc; rfl
  | cons e rest ih =>
    intro acc
    simp only [List.foldl_cons]
    rw [ih]
    by_cases hk : mergeWord p e.1 = k
    · have hb : (mergeWord p e.1 == k) = true := beq_iff_eq.mpr hk
      rw [List.filter_cons, if_pos hb]
      cases hf : rest.filter (fun e => mergeWord p e.1 == k) with
      | nil =>
        simp only [List.getLast?_nil, List.getLast?_singleton, Option.elim]
        rw [← hk, dictFind_dictSet_self]
      | cons x xs =>
        cases hxl : (x :: xs).getLast? with
        | none => simp at hxl
        | some y =>
          rw [List.getLast?_cons_cons, hxl]
          simp [Option.elim]
    · have hb : (mergeWord p e.1 == k) = false := beq_eq_false_iff_ne.mpr hk
      rw [List.filter_cons, if_neg (by simp [hb])]
      rw [dictFind_dictSet_ne _ _ _ _ (fun he => hk he.symm)]

/-! ### The selector -/

/-- `pyMaxAux` returns the key of the first entry attaining the maximal
value: there is a decomposition of the statistics list with all earlier
entries strictly below the maximum. -/
theorem pyMaxAux_spec : ∀ (rest : List (Pair × Nat)) (kv : Pair × Nat),
    ∃ (e : Pair × Nat) (l1 l2 : List (Pair × Nat)),
      pyMaxAux kv rest = e.1 ∧ kv :: rest = l1 ++ e :: l2
      ∧ (∀ b ∈ kv :: rest, b.2 ≤ e.2) ∧ (∀ b ∈ l1, b.2 < e.2) := by
  intro rest
  induction rest with
  | nil =>
    intro kv
    exact ⟨kv, [], [], rfl, rfl, by simp, by simp⟩
  | cons b rest ih =>
    intro kv
    by_cases h : b.2 > kv.2
    · obtain ⟨e, l1, l2, h1, h2, h3, h4⟩ := ih b
      refine ⟨e, kv :: l1, l2, ?_, ?_, ?_, ?_⟩
      · rw [pyMaxAux, if_pos h]
        exact h1
      · rw [List.cons_append, ← h2]
      · intro x hx
        rcases List.mem_cons.mp hx with hx | hx
        · have hb : b.2 ≤ e.2 := h3 b (by simp)
          rw [hx]
          omega
        · exact h3 x hx
      · intro x hx
        rcases List.mem_cons.mp hx with hx | hx
        · have hb : b.2 ≤ e.2 := h3 b (by simp)
          rw [hx]
          omega
        · exact h4 x hx
    · obtain ⟨e, l1, l2, h1, h2, h3, h4⟩ := ih kv
      cases l1 with
      | nil =>
        simp only [List.nil_append] at h2
        have he : e = kv := (List.cons.inj h2).1.symm
        have hl2 : l2 = rest := (List.cons.inj h2).2.symm
        refine ⟨e, [], b :: l2, ?_, ?_, ?_, ?_⟩
        · rw [pyMaxAux, if_neg h]
          exact h1
        · rw [List.nil_append, he, hl2]
        · intro x hx
          rcases List.mem_cons.mp hx with hx | hx
          · rw [hx, he]
          · rcases List.mem_cons.mp hx with hx2 | hx2
            · rw [hx2, he]
              omega
            · exact h3 x (List.mem_cons_of_mem _ hx2)
        · intro x hx
          simp at hx
      | cons q l1t =>
        simp only [List.cons_append] at h2
        have hq : q = kv := (List.cons.inj h2).1.symm
        have hrest : rest = l1t ++ e :: l2 := (List.cons.inj h2).2
        have hkv_lt : kv.2 < e.2 := by
          have := h4 q (by simp)
          rw [hq] at this
          exact this
        refine ⟨e, kv :: b :: l1t, l2, ?_, ?_, ?_, ?_⟩
        · rw [pyMaxAux, if_neg h]
          exact h1
        · simp [hrest]
        · intro x hx
          rcases List.mem_cons.mp hx with hx | hx
          · rw [hx]
            omega
          · rcases List.mem_cons.mp hx with hx2 | hx2
            · rw [hx2]
              omega
            · exact h3 x (by simp [hrest] at hx2 ⊢; tauto)
        · intro x hx
          rcases List.mem_cons.mp hx with hx | hx
          · rw [hx]
            omega
          · rcases List.mem_cons.mp hx with hx2 | hx2
            · rw [hx2]
              omega
            · exact h4 x (by simp [hx2])

/-! ### Shape of the initial vocabulary -/

theorem splitWs_tokenizeWord (w : Str) (hw : w ≠ [])
    (hnos : ∀ c ∈ w, isSpacePy c = false) :
    splitWs (tokenizeWord w) = w.map (fun c => [c]) ++ [endMarker] := by
  have hmapne : w.map (fun c => [c]) ≠ [] := by
    simpa using hw
  have h1 : tokenizeWord w = joinSpace (w.map (fun c => [c]) ++ [endMarker]) := by
    rw [joinSpace_append_single _ _ hmapne]
    rfl
  rw [h1, splitWs_joinSpace]
  intro x hx
  rcases List.mem_append.mp hx with h | h
  · obtain ⟨c, hc, he⟩ := List.mem_map.mp h
    refine ⟨by rw [← he]; simp, ?_⟩
    intro c2 hc2
    rw [← he] at hc2
    rw [List.mem_singleton.mp hc2]
    exact hnos c hc
  · rw [List.mem_singleton.mp h]
    constructor
    · simp [endMarker]
    · decide

theorem mem_dictAdd_key (d : Vocab) (k : Str) (n : Nat) (e : Str × Nat)
    (he : e ∈ dictAdd d k n) : e.1 = k ∨ e.1 ∈ d.map Prod.fst := by
  rcases mem_dictSet _ _ _ _ he with h | h
  · exact Or.inl h
  · exact Or.inr (List.mem_map.mpr ⟨e, h, rfl⟩)

/-- Every key of the initial vocabulary is the tokenization of some
non-empty, whitespace-free corpus word. -/
theorem read_sentences_keys (lines : List Str) (v0 : Vocab)
    (h : read_sentences lines = .ok v0) :
    ∀ e ∈ v0, ∃ w : Str, w ≠ [] ∧ (∀ c ∈ w, isSpacePy c = false)
      ∧ e.1 = tokenizeWord w := by
  have hwords : ∀ (ws : List Str), (∀ x ∈ ws, SymOK x) → ∀ (acc : Vocab),
      (∀ e ∈ acc, ∃ w : Str, w ≠ [] ∧ (∀ c ∈ w, isSpacePy c = false)
        ∧ e.1 = tokenizeWord w) →
      ∀ e ∈ ws.foldl (fun a x => dictAdd a (tokenizeWord x) 1) acc,
      ∃ w : Str, w ≠ [] ∧ (∀ c ∈ w, isSpacePy c = false) ∧ e.1 = tokenizeWord w := by
    intro ws
    induction ws with
    | nil => intro _ acc hacc e he; exact hacc e he
    | cons x rest ih =>
      intro hok acc hacc e he
      simp only [List.foldl_cons] at he
      refine ih (fun y hy => hok y (List.mem_cons_of_mem _ hy)) _ ?_ e he
      intro e2 he2
      rcases mem_dictSet _ _ _ _ he2 with h2 | h2
      · have hx := hok x (by simp)
        exact ⟨x, hx.1, hx.2, h2⟩
      · exact hacc e2 h2
  have hlines : ∀ (ls : List Str) (acc : Vocab),
      (∀ e ∈ acc, ∃ w : Str, w ≠ [] ∧ (∀ c ∈ w, isSpacePy c = false)
        ∧ e.1 = tokenizeWord w) →
      ∀ e ∈ ls.foldl (fun acc line =>
          (splitWs line).foldl (fun a x => dictAdd a (tokenizeWord x) 1) acc) acc,
      ∃ w : Str, w ≠ [] ∧ (∀ c ∈ w, isSpacePy c = false) ∧ e.1 = tokenizeWord w := by
    intro ls
    induction ls with
    | nil => intro acc hacc e he; exact hacc e he
    | cons l rest ih =>
      intro acc hacc e he
      simp only [List.foldl_cons] at he
      exact ih _ (fun e2 he2 => hwords (splitWs l) (splitWs_SymOK l) acc hacc e2 he2) e he
  unfold read_sentences at h
  by_cases he : (lines.foldl (fun acc line =>
      (splitWs line).foldl (fun acc2 word => dictAdd acc2 (tokenizeWord word) 1) acc) []) = []
  · simp [he] at h
  · simp [he] at h
    intro e hev
    rw [← h] at hev
    exact hlines lines [] (by simp) e hev

/-- A corpus of only whitespace yields no words at all. -/
theorem splitWs_all_space (l : Str) (h : ∀ c ∈ l, isSpacePy c = true) :
    splitWs l = [] := by
  unfold splitWs
  induction l with
  | nil => rfl
  | cons c rest ih =>
    have hc : isSpacePy c = true := h c (by simp)
    simp only [splitWsAux, hc, if_pos, if_true]
    exact ih (fun c2 hc2 => h c2 (List.mem_cons_of_mem _ hc2))

theorem read_sentences_all_space (lines : List Str)
    (h : ∀ l ∈ lines, ∀ c ∈ l, isSpacePy c = true) :
    read_sentences lines = .error .EmptyCorpus := by
  have hfold : (lines.foldl (fun acc line =>
      (splitWs line).foldl (fun acc2 word => dictAdd acc2 (tokenizeWord word) 1) acc)
      ([] : Vocab)) = [] := by
    have hgen : ∀ (ls : List Str), (∀ l ∈ ls, ∀ c ∈ l, isSpacePy c = true) →
        ∀ acc : Vocab, (ls.foldl (fun acc line =>
          (splitWs line).foldl (fun acc2 word => dictAdd acc2 (tokenizeWord word) 1) acc)
          acc) = acc := by
      intro ls
      induction ls with
      | nil => intro _ acc; rfl
      | cons l rest ih =>
        intro h2 acc
        simp only [List.foldl_cons]
        rw [splitWs_all_space l (h2 l (by simp))]
        exact ih (fun l2 hl2 => h2 l2 (List.mem_cons_of_mem _ hl2)) acc
    exact hgen lines h []
  unfold read_sentences
  rw [hfold]
  rfl

/-! ### Replay of the learned rules -/

theorem learnLoop_acc : ∀ (n : Nat) (v : Vocab) (ms : List Pair),
    learnLoop n v ms = (ms ++ (learnLoop n v []).1, (learnLoop n v []).2) := by
  intro n
  induction n with
  | zero => intro v ms; simp [learnLoop]
  | succ n ih =>
    intro v ms
    cases hs : get_stats v with
    | nil => simp [learnLoop, hs]
    | cons kv rest =>
      simp only [learnLoop, hs, List.nil_append]
      rw [ih (merge_vocab (pyMaxAux kv rest) v) (ms ++ [pyMaxAux kv rest]),
        ih (merge_vocab (pyMaxAux kv rest) v) [pyMaxAux kv rest]]
      simp

/-- The final vocabulary is the left fold of the rewriter over the learned
rules, applied to the starting vocabulary. -/
theorem learnLoop_foldl : ∀ (n : Nat) (v : Vocab),
    (learnLoop n v []).2
      = List.foldl (fun a p => merge_vocab p a) v (learnLoop n v []).1 := by
  intro n
  induction n with
  | zero => intro v; rfl
  | succ n ih =>
    intro v
    cases hs : get_stats v with
    | nil => simp [learnLoop, hs]
    | cons kv rest =>
      simp only [learnLoop, hs, List.nil_append]
      rw [learnLoop_acc n (merge_vocab (pyMaxAux kv rest) v) [pyMaxAux kv rest]]
      rw [ih (merge_vocab (pyMaxAux kv rest) v)]
      simp

/-! ### Claim theorems -/

/-- C2 counterexample: on the vocabulary with the single entry `a a a </w>`
(count 1), the pair `(a, a)` has exactly one non-overlapping left-to-right
occurrence, so the claim predicts frequency `1 × 1 = 1`, but `get_stats`
reports `2` (it adds the count at every adjacent index, counting overlapping
occurrences). -/
theorem C2_counterexample :
    dictGetD (get_stats [(['a', ' ', 'a', ' ', 'a', ' ', '<', '/', 'w', '>'], 1)])
      ((['a'], ['a'])) 0 = 2
    ∧ nonOverlapCount ['a'] ['a']
        (splitWs ['a', ' ', 'a', ' ', 'a', ' ', '<', '/', 'w', '>']) = 1
    ∧ (2 : Nat) ≠ 1 * 1 := by
  refine ⟨by decide, by decide, by decide⟩

/-- C2 (amended): for every vocabulary and every pair, the frequency reported
by `get_stats` for that pair equals the sum, over all word entries, of the
entry's occurrence count multiplied by the number of adjacent index positions
of the entry's symbol sequence at which the pair occurs — overlapping
occurrences all counted (not the non-overlapping count). -/
theorem C2_statistics_adjacent_positions (v : Vocab) (p : Pair) :
    dictGetD (get_stats v) p 0
      = (v.map (fun e => e.2 * (wordPairs (splitWs e.1)).count p)).sum :=
  get_stats_value v p

/-- C5: on well-formed symbols and vocabularies (symbols non-empty and free
of whitespace, entries being space-joined symbol sequences), the regex-based
`merge_vocab` produces exactly the same vocabulary as the reference rewrite
that scans each entry's symbol sequence and replaces every non-overlapping,
maximal left-to-right occurrence of the pair, matched as two whole adjacent
symbols, with the single fused symbol. -/
theorem C5_rewriter_refinement (p1 p2 : Str) (v : Vocab)
    (hp1 : SymOK p1) (hp2 : SymOK p2) (hv : VocabWF v) :
    merge_vocab (p1, p2) v = specMergeVocabScan (p1, p2) v :=
  merge_vocab_eq_spec p1 p2 hp1 hp2 v hv

/-- C5 witness: a vocabulary with overlapping symbol text (the symbol `ab`
contains the text of the pair symbol `b`); the regex's boundary assertions
make the substitution agree with the symbol-level scan. -/
theorem C5_rewriter_refinement_witness :
    SymOK ['b'] ∧ SymOK ['c']
    ∧ VocabWF [(['a', 'b', ' ', 'c', ' ', '<', '/', 'w', '>'], 1)]
    ∧ merge_vocab (['b'], ['c']) [(['a', 'b', ' ', 'c', ' ', '<', '/', 'w', '>'], 1)]
      = specMergeVocabScan (['b'], ['c'])
          [(['a', 'b', ' ', 'c', ' ', '<', '/', 'w', '>'], 1)] :=
  ⟨by decide, by decide, by decide,
    C5_rewriter_refinement ['b'] ['c'] _ (by decide) (by decide) (by decide)⟩

/-- C8: a corpus in which every line consists only of whitespace characters
parses no word: `read_sentences` fails with `EmptyCorpus`, and the whole
training run propagates that failure, writing no output. -/
theorem C8_empty_corpus (lines : List Str) (n : Nat)
    (h : ∀ l ∈ lines, ∀ c ∈ l, isSpacePy c = true) :
    read_sentences lines = .error .EmptyCorpus
    ∧ learn_bpe lines n = .error .EmptyCorpus := by
  have hr := read_sentences_all_space lines h
  refine ⟨hr, ?_⟩
  unfold learn_bpe
  rw [hr]

/-- C8 witness: a corpus of one all-blank line and one empty line. -/
theorem C8_empty_corpus_witness :
    (∀ l ∈ [[' ', ' '], ([] : Str)], ∀ c ∈ l, isSpacePy c = true)
    ∧ read_sentences [[' ', ' '], []] = .error .EmptyCorpus
    ∧ learn_bpe [[' ', ' '], []] 3 = .error .EmptyCorpus :=
  ⟨by decide, (C8_empty_corpus [[' ', ' '], []] 3 (by decide)).1,
    (C8_empty_corpus [[' ', ' '], []] 3 (by decide)).2⟩

/-- Reading succeeds exactly when the driver proceeds: `learn_bpe` on a
successfully read corpus runs the loop on the initial vocabulary and persists
the learned rules. -/
theorem learn_bpe_ok (lines : List Str) (n : Nat) (v0 : Vocab)
    (h : read_sentences lines = .ok v0) :
    learn_bpe lines n
      = .ok ((learnLoop n v0 []).1, (learnLoop n v0 []).2,
          writeRules (learnLoop n v0 []).1) := by
  unfold learn_bpe
  rw [h]

/-- C9: with merge budget 0 the trainer returns no rules and the vocabulary
unchanged, and the sum of occurrence counts across that (final = initial)
vocabulary equals the number of non-empty whitespace-delimited tokens of the
corpus. -/
theorem C9_budget_zero (lines : List Str) (v0 : Vocab)
    (h : read_sentences lines = .ok v0) :
    learn_bpe lines 0 = .ok ([], v0, writeRules [])
    ∧ vocabTotal v0 = corpusTokens lines := by
  refine ⟨?_, read_sentences_total lines v0 h⟩
  rw [learn_bpe_ok lines 0 v0 h]
  rfl

/-- C9 witness: two lines with three tokens in all, two of them equal. -/
theorem C9_budget_zero_witness :
    read_sentences [['a', 'b'], ['a', 'b', ' ', 'c']]
      = .ok [(['a', ' ', 'b', ' ', '<', '/', 'w', '>'], 2),
          (['c', ' ', '<', '/', 'w', '>'], 1)]
    ∧ (learn_bpe [['a', 'b'], ['a', 'b', ' ', 'c']] 0
        = .ok ([], [(['a', ' ', 'b', ' ', '<', '/', 'w', '>'], 2),
            (['c', ' ', '<', '/', 'w', '>'], 1)], writeRules [])
      ∧ vocabTotal [(['a', ' ', 'b', ' ', '<', '/', 'w', '>'], 2),
          (['c', ' ', '<', '/', 'w', '>'], 1)]
        = corpusTokens [['a', 'b'], ['a', 'b', ' ', 'c']]) :=
  ⟨rfl, C9_budget_zero [['a', 'b'], ['a', 'b', ' ', 'c']] _ rfl⟩

/-- C1 counterexample: merging `(a, b)` over a vocabulary in which
`a b </w>` (count 1) and `ab </w>` (count 2) rewrite to the same key.  The
claim predicts the single key `ab </w>` with summed count `1 + 2 = 3`, but
the source's `vocab_new[new_word] = freq` keeps only the later entry's count
`2`. -/
theorem C1_counterexample :
    merge_vocab (['a'], ['b'])
      [(['a', ' ', 'b', ' ', '<', '/', 'w', '>'], 1),
        (['a', 'b', ' ', '<', '/', 'w', '>'], 2)]
      = [(['a', 'b', ' ', '<', '/', 'w', '>'], 2)]
    ∧ (2 : Nat) ≠ 1 + 2 := by
  constructor
  · rw [merge_vocab_eq_spec ['a'] ['b'] (by decide) (by decide) _ (by decide)]
    decide
  · decide

/-- C1 (amended): when two distinct word entries become identical symbol
sequences after the merge (and no other entry rewrites to that key), the
resulting vocabulary contains a single key for that sequence whose occurrence
count is the count of the LATER of the two entries in iteration order — the
assignment `vocab_new[new_word] = freq` overwrites, it does not sum. -/
theorem C1_collapse_last_writer_wins (p : Pair) (l1 l2 l3 : Vocab)
    (w1 w2 : Str) (c1 c2 : Nat)
    (hne : w1 ≠ w2) (hcol : mergeWord p w1 = mergeWord p w2)
    (hothers : ∀ e ∈ (l1 ++ l2) ++ l3, mergeWord p e.1 ≠ mergeWord p w1) :
    dictFind (merge_vocab p (l1 ++ (w1, c1) :: l2 ++ (w2, c2) :: l3))
        (mergeWord p w1) = some c2
    ∧ (merge_vocab p (l1 ++ (w1, c1) :: l2 ++ (w2, c2) :: l3)).countP
        (fun e => e.1 = mergeWord p w1) = 1 := by
  have hfilter : (l1 ++ (w1, c1) :: l2 ++ (w2, c2) :: l3).filter
      (fun e => mergeWord p e.1 == mergeWord p w1) = [(w1, c1), (w2, c2)] := by
    have hnil : ∀ l : Vocab, (∀ e ∈ l, e ∈ (l1 ++ l2) ++ l3) →
        l.filter (fun e => mergeWord p e.1 == mergeWord p w1) = [] := by
      intro l hl
      rw [List.filter_eq_nil_iff]
      intro a ha
      simp only [Bool.not_eq_true, beq_eq_false_iff_ne]
      exact hothers a (hl a ha)
    rw [List.filter_append, List.filter_cons, List.filter_append, List.filter_cons,
      hnil l1 (fun e he => by simp [he]),
      hnil l2 (fun e he => by simp [he]),
      hnil l3 (fun e he => by simp [he])]
    have h1 : (mergeWord p (w1, c1).1 == mergeWord p w1) = true := by
      simp
    have h2 : (mergeWord p (w2, c2).1 == mergeWord p w1) = true := by
      simp only [beq_iff_eq]
      exact hcol.symm
    rw [if_pos h1, if_pos h2]
    rfl
  have hfind : dictFind (merge_vocab p (l1 ++ (w1, c1) :: l2 ++ (w2, c2) :: l3))
      (mergeWord p w1) = some c2 := by
    unfold merge_vocab
    rw [merge_vocab_find p (mergeWord p w1) _ [], hfilter]
    rfl
  exact ⟨hfind, countP_key_of_nodup _ _ (merge_vocab_keys_nodup p _) c2 hfind⟩

/-- C1 witness: the two entries of the counterexample, with the theorem
applied at them. -/
theorem C1_collapse_last_writer_wins_witness :
    ((['a', ' ', 'b', ' ', '<', '/', 'w', '>'] : Str)
        ≠ ['a', 'b', ' ', '<', '/', 'w', '>'])
    ∧ mergeWord (['a'], ['b']) ['a', ' ', 'b', ' ', '<', '/', 'w', '>']
        = mergeWord (['a'], ['b']) ['a', 'b', ' ', '<', '/', 'w', '>']
    ∧ dictFind (merge_vocab (['a'], ['b'])
        ([] ++ (['a', ' ', 'b', ' ', '<', '/', 'w', '>'], 1)
          :: [] ++ (['a', 'b', ' ', '<', '/', 'w', '>'], 2) :: []))
        (mergeWord (['a'], ['b']) ['a', ' ', 'b', ' ', '<', '/', 'w', '>']) = some 2
    ∧ (merge_vocab (['a'], ['b'])
        ([] ++ (['a', ' ', 'b', ' ', '<', '/', 'w', '>'], 1)
          :: [] ++ (['a', 'b', ' ', '<', '/', 'w', '>'], 2) :: [])).countP
        (fun e => e.1 = mergeWord (['a'], ['b']) ['a', ' ', 'b', ' ', '<', '/', 'w', '>'])
        = 1 := by
  have hmw1 : mergeWord (['a'], ['b']) ['a', ' ', 'b', ' ', '<', '/', 'w', '>']
      = ['a', 'b', ' ', '<', '/', 'w', '>'] := by
    rw [mergeWord_eq_scan ['a'] ['b'] (by decide) (by decide) _ (by decide)]
    decide
  have hmw2 : mergeWord (['a'], ['b']) ['a', 'b', ' ', '<', '/', 'w', '>']
      = ['a', 'b', ' ', '<', '/', 'w', '>'] := by
    rw [mergeWord_eq_scan ['a'] ['b'] (by decide) (by decide) _ (by decide)]
    decide
  have happ := C1_collapse_last_writer_wins (['a'], ['b']) [] [] []
    ['a', ' ', 'b', ' ', '<', '/', 'w', '>'] ['a', 'b', ' ', '<', '/', 'w', '>'] 1 2
    (by decide) (hmw1.trans hmw2.symm) (by simp)
  exact ⟨by decide, hmw1.trans hmw2.symm, happ.1, happ.2⟩

/-- C3 counterexample: two vocabularies whose pair statistics are the same
mapping (a permutation of one another, every frequency 1) make the selector
return two different pairs, so the tie-break is the statistics dict's
insertion order — not a rule independent of the structure's iteration
order. -/
theorem C3_counterexample :
    (get_stats [(['a', ' ', 'b', ' ', '<', '/', 'w', '>'], 1),
        (['b', ' ', 'a', ' ', '<', '/', 'w', '>'], 1)]).Perm
      (get_stats [(['b', ' ', 'a', ' ', '<', '/', 'w', '>'], 1),
        (['a', ' ', 'b', ' ', '<', '/', 'w', '>'], 1)])
    ∧ pyMax (get_stats [(['a', ' ', 'b', ' ', '<', '/', 'w', '>'], 1),
        (['b', ' ', 'a', ' ', '<', '/', 'w', '>'], 1)]) = some ((['a'], ['b']))
    ∧ pyMax (get_stats [(['b', ' ', 'a', ' ', '<', '/', 'w', '>'], 1),
        (['a', ' ', 'b', ' ', '<', '/', 'w', '>'], 1)]) = some ((['b'], ['a']))
    ∧ ((['a'], ['b']) : Pair) ≠ (['b'], ['a']) := by
  refine ⟨by decide, by decide, by decide, by decide⟩

/-- C3 (amended): on every non-empty statistics mapping the Merge Selector
returns a pair of maximum frequency; among tied pairs it returns the first
key attaining the maximum in the mapping's insertion (iteration) order — the
selection therefore depends on that incidental order, and no lexicographic
tie-break is applied. -/
theorem C3_selector_first_max (l : List (Pair × Nat)) (hne : l ≠ []) :
    ∃ (e : Pair × Nat) (l1 l2 : List (Pair × Nat)),
      pyMax l = some e.1 ∧ l = l1 ++ e :: l2
      ∧ (∀ b ∈ l, b.2 ≤ e.2) ∧ (∀ b ∈ l1, b.2 < e.2) := by
  cases l with
  | nil => exact absurd rfl hne
  | cons kv rest =>
    obtain ⟨e, l1, l2, h1, h2, h3, h4⟩ := pyMaxAux_spec rest kv
    exact ⟨e, l1, l2,
      by rw [show pyMax (kv :: rest) = some (pyMaxAux kv rest) from rfl, h1],
      h2, h3, h4⟩

/-- C3 witness: a two-entry tied statistics list. -/
theorem C3_selector_first_max_witness :
    (([((['a'], ['b']), 2), ((['b'], ['c']), 2)] : List (Pair × Nat)) ≠ [])
    ∧ ∃ (e : Pair × Nat) (l1 l2 : List (Pair × Nat)),
      pyMax [((['a'], ['b']), 2), ((['b'], ['c']), 2)] = some e.1
      ∧ ([((['a'], ['b']), 2), ((['b'], ['c']), 2)] : List (Pair × Nat)) = l1 ++ e :: l2
      ∧ (∀ b ∈ [((['a'], ['b']), 2), ((['b'], ['c']), 2)], b.2 ≤ e.2)
      ∧ (∀ b ∈ l1, b.2 < e.2) :=
  ⟨by decide, C3_selector_first_max _ (by decide)⟩

/-- C6: rewriting a well-formed vocabulary with a pair (p1, p2): entries not
containing the pair are byte-for-byte unchanged, every entry shortens by
exactly one symbol per non-overlapping occurrence of the pair, and the
statistics of the rewritten vocabulary have no key for the pair. -/
theorem C6_rewrite_shortens_and_clears (p1 p2 : Str) (v : Vocab)
    (hp1 : SymOK p1) (hp2 : SymOK p2) (hv : VocabWF v) :
    (∀ e ∈ v, (p1, p2) ∉ wordPairs (splitWs e.1) → mergeWord (p1, p2) e.1 = e.1)
    ∧ (∀ e ∈ v, (splitWs (mergeWord (p1, p2) e.1)).length
        + nonOverlapCount p1 p2 (splitWs e.1) = (splitWs e.1).length)
    ∧ dictFind (get_stats (merge_vocab (p1, p2) v)) (p1, p2) = none := by
  have hsplit : ∀ w : Str, WordWF w →
      splitWs (mergeWord (p1, p2) w) = specMergeSymbols p1 p2 (splitWs w) := by
    intro w hw
    rw [mergeWord_eq_scan p1 p2 hp1 hp2 w hw,
      splitWs_joinSpace _ (specMergeSymbols_SymOK p1 p2 hp1 hp2 _ (splitWs_SymOK w))]
  refine ⟨?_, ?_, ?_⟩
  · intro e he hno
    rw [mergeWord_eq_scan p1 p2 hp1 hp2 e.1 (hv e he),
      specMergeSymbols_noop p1 p2 _ hno]
    exact hv e he
  · intro e he
    rw [hsplit e.1 (hv e he)]
    exact specMergeSymbols_length p1 p2 (splitWs e.1)
  · apply get_stats_find_none
    intro e2 he2
    obtain ⟨w, c, hwmem, hkey⟩ := mem_merge_vocab _ _ _ he2
    rw [hkey, hsplit w (hv (w, c) hwmem)]
    exact specMergeSymbols_no_pair p1 p2 hp1.1 hp2.1 (splitWs w)

/-- C6 witness: the pair `(a, b)` over a vocabulary with a double occurrence
and an untouched entry. -/
theorem C6_rewrite_shortens_and_clears_witness :
    SymOK ['a'] ∧ SymOK ['b']
    ∧ VocabWF [(['a', ' ', 'b', ' ', 'a', ' ', 'b', ' ', '<', '/', 'w', '>'], 1),
        (['c', ' ', '<', '/', 'w', '>'], 2)]
    ∧ ((∀ e ∈ [(['a', ' ', 'b', ' ', 'a', ' ', 'b', ' ', '<', '/', 'w', '>'], 1),
          (['c', ' ', '<', '/', 'w', '>'], 2)],
        (['a'], ['b']) ∉ wordPairs (splitWs e.1)
          → mergeWord (['a'], ['b']) e.1 = e.1)
      ∧ (∀ e ∈ [(['a', ' ', 'b', ' ', 'a', ' ', 'b', ' ', '<', '/', 'w', '>'], 1),
          (['c', ' ', '<', '/', 'w', '>'], 2)],
        (splitWs (mergeWord (['a'], ['b']) e.1)).length
          + nonOverlapCount ['a'] ['b'] (splitWs e.1) = (splitWs e.1).length)
      ∧ dictFind (get_stats (merge_vocab (['a'], ['b'])
          [(['a', ' ', 'b', ' ', 'a', ' ', 'b', ' ', '<', '/', 'w', '>'], 1),
            (['c', ' ', '<', '/', 'w', '>'], 2)])) ((['a'], ['b'])) = none) :=
  ⟨by decide, by decide, by decide,
    C6_rewrite_shortens_and_clears ['a'] ['b'] _ (by decide) (by decide) (by decide)⟩

/-- C4 counterexample: on the corpus whose single word is the literal text
`</w>`, three training merges fuse the word's characters `<`, `/`, `w`, `>`
back into a compound symbol equal to the end-marker: the reachable vocabulary
`</w> </w>` has an entry whose symbol sequence contains the end-marker twice
(a fused compound equal to the reserved marker), refuting the claimed
invariant. -/
theorem C4_counterexample :
    learn_bpe [['<', '/', 'w', '>']] 3
      = .ok ([(['<'], ['/']), (['<', '/'], ['w']), (['<', '/', 'w'], ['>'])],
          [(['<', '/', 'w', '>', ' ', '<', '/', 'w', '>'], 1)],
          writeRules [(['<'], ['/']), (['<', '/'], ['w']), (['<', '/', 'w'], ['>'])])
    ∧ ['<', '/', 'w'] ++ ['>'] = endMarker
    ∧ splitWs ['<', '/', 'w', '>', ' ', '<', '/', 'w', '>'] = [endMarker, endMarker]
    ∧ (splitWs ['<', '/', 'w', '>', ' ', '<', '/', 'w', '>']).count endMarker = 2 := by
  have h1 : merge_vocab (['<'], ['/'])
      [(['<', ' ', '/', ' ', 'w', ' ', '>', ' ', '<', '/', 'w', '>'], 1)]
      = [(['<', '/', ' ', 'w', ' ', '>', ' ', '<', '/', 'w', '>'], 1)] := by
    rw [merge_vocab_eq_spec ['<'] ['/'] (by decide) (by decide) _ (by decide)]
    decide
  have h2 : merge_vocab (['<', '/'], ['w'])
      [(['<', '/', ' ', 'w', ' ', '>', ' ', '<', '/', 'w', '>'], 1)]
      = [(['<', '/', 'w', ' ', '>', ' ', '<', '/', 'w', '>'], 1)] := by
    rw [merge_vocab_eq_spec ['<', '/'] ['w'] (by decide) (by decide) _ (by decide)]
    decide
  have h3 : merge_vocab (['<', '/', 'w'], ['>'])
      [(['<', '/', 'w', ' ', '>', ' ', '<', '/', 'w', '>'], 1)]
      = [(['<', '/', 'w', '>', ' ', '<', '/', 'w', '>'], 1)] := by
    rw [merge_vocab_eq_spec ['<', '/', 'w'] ['>'] (by decide) (by decide) _ (by decide)]
    decide
  have hL : learnLoop 3 [(['<', ' ', '/', ' ', 'w', ' ', '>', ' ', '<', '/', 'w', '>'], 1)] []
      = ([(['<'], ['/']), (['<', '/'], ['w']), (['<', '/', 'w'], ['>'])],
        [(['<', '/', 'w', '>', ' ', '<', '/', 'w', '>'], 1)]) := by
    have e1 : learnLoop 3 [(['<', ' ', '/', ' ', 'w', ' ', '>', ' ', '<', '/', 'w', '>'], 1)] []
        = learnLoop 2 (merge_vocab (['<'], ['/'])
            [(['<', ' ', '/', ' ', 'w', ' ', '>', ' ', '<', '/', 'w', '>'], 1)])
            [(['<'], ['/'])] := rfl
    rw [e1, h1]
    have e2 : learnLoop 2 [(['<', '/', ' ', 'w', ' ', '>', ' ', '<', '/', 'w', '>'], 1)]
          [(['<'], ['/'])]
        = learnLoop 1 (merge_vocab (['<', '/'], ['w'])
            [(['<', '/', ' ', 'w', ' ', '>', ' ', '<', '/', 'w', '>'], 1)])
            [(['<'], ['/']), (['<', '/'], ['w'])] := rfl
    rw [e2, h2]
    have e3 : learnLoop 1 [(['<', '/', 'w', ' ', '>', ' ', '<', '/', 'w', '>'], 1)]
          [(['<'], ['/']), (['<', '/'], ['w'])]
        = learnLoop 0 (merge_vocab (['<', '/', 'w'], ['>'])
            [(['<', '/', 'w', ' ', '>', ' ', '<', '/', 'w', '>'], 1)])
            [(['<'], ['/']), (['<', '/'], ['w']), (['<', '/', 'w'], ['>'])] := rfl
    rw [e3, h3]
    rfl
  refine ⟨?_, by decide, by decide, by decide⟩
  rw [learn_bpe_ok [['<', '/', 'w', '>']] 3
    [(['<', ' ', '/', ' ', 'w', ' ', '>', ' ', '<', '/', 'w', '>'], 1)] rfl, hL]

/-- C4 (amended): in the initial vocabulary built by the Corpus Tokenizer,
every word entry's symbol sequence ends with the end-marker, contains exactly
one occurrence of it, and the end-marker differs from every single-character
symbol.  (During the run, fused compounds can equal the end-marker when a
corpus word contains its text, as the counterexample shows.) -/
theorem C4_initial_marker (lines : List Str) (v0 : Vocab)
    (h : read_sentences lines = .ok v0) :
    ∀ e ∈ v0, (splitWs e.1).getLast? = some endMarker
      ∧ (splitWs e.1).count endMarker = 1
      ∧ (∀ c : Char, [c] ≠ endMarker) := by
  intro e he
  obtain ⟨w, hw, hnos, hkey⟩ := read_sentences_keys lines v0 h e he
  have hchar : ∀ c : Char, ([c] : Str) ≠ endMarker := by
    intro c hc
    have h2 := congrArg List.length hc
    simp [endMarker] at h2
  have hcount0 : (w.map (fun c => [c])).count endMarker = 0 := by
    rw [List.count_eq_zero]
    intro hm
    obtain ⟨c, -, hc⟩ := List.mem_map.mp hm
    exact hchar c hc
  rw [hkey, splitWs_tokenizeWord w hw hnos]
  refine ⟨List.getLast?_concat _, ?_, hchar⟩
  rw [List.count_append, hcount0]
  simp

/-- C4 witness: the one-word corpus `hi`. -/
theorem C4_initial_marker_witness :
    read_sentences [['h', 'i']] = .ok [(['h', ' ', 'i', ' ', '<', '/', 'w', '>'], 1)]
    ∧ ((splitWs ['h', ' ', 'i', ' ', '<', '/', 'w', '>']).getLast? = some endMarker
      ∧ (splitWs ['h', ' ', 'i', ' ', '<', '/', 'w', '>']).count endMarker = 1
      ∧ (∀ c : Char, [c] ≠ endMarker)) :=
  ⟨rfl, C4_initial_marker [['h', 'i']] [(['h', ' ', 'i', ' ', '<', '/', 'w', '>'], 1)] rfl
    ((['h', ' ', 'i', ' ', '<', '/', 'w', '>'], 1)) (by simp)⟩

/-- C7: when the pair statistics become empty after `k` of the `n` budgeted
iterations (`k < n`), the driver stops early without error: `learn_bpe`
still returns successfully, persists exactly the rules learned in the first
`k` iterations, and produces fewer rules than requested. -/
theorem C7_early_termination (lines : List Str) (n k : Nat) (v0 : Vocab)
    (hread : read_sentences lines = .ok v0) (hk : k < n)
    (hempty : get_stats ((learnLoop k v0 []).2) = []) :
    learn_bpe lines n
      = .ok ((learnLoop k v0 []).1, (learnLoop k v0 []).2,
          writeRules (learnLoop k v0 []).1)
    ∧ (learnLoop k v0 []).1.length < n := by
  have hstage : learnLoop n v0 [] = learnLoop k v0 [] := by
    have hnk : n = k + (n - k) := by omega
    rw [hnk, learnLoop_add (n - k) k v0 [],
      learnLoop_stats_empty _ hempty]
  constructor
  · rw [learn_bpe_ok lines n v0 hread, hstage]
  · have hlen := learnLoop_len k v0 []
    simp only [List.length_nil] at hlen
    omega

/-- C7 witness: the corpus `a` exhausts its single mergeable pair after one
iteration; with budget 5 the run returns one rule. -/
theorem C7_early_termination_witness :
    read_sentences [['a']] = .ok [(['a', ' ', '<', '/', 'w', '>'], 1)]
    ∧ 1 < 5
    ∧ get_stats ((learnLoop 1 [(['a', ' ', '<', '/', 'w', '>'], 1)] []).2) = []
    ∧ (learn_bpe [['a']] 5
        = .ok ((learnLoop 1 [(['a', ' ', '<', '/', 'w', '>'], 1)] []).1,
            (learnLoop 1 [(['a', ' ', '<', '/', 'w', '>'], 1)] []).2,
            writeRules (learnLoop 1 [(['a', ' ', '<', '/', 'w', '>'], 1)] []).1)
      ∧ (learnLoop 1 [(['a', ' ', '<', '/', 'w', '>'], 1)] []).1.length < 5) := by
  have h1 : merge_vocab (['a'], ['<', '/', 'w', '>']) [(['a', ' ', '<', '/', 'w', '>'], 1)]
      = [(['a', '<', '/', 'w', '>'], 1)] := by
    rw [merge_vocab_eq_spec ['a'] ['<', '/', 'w', '>'] (by decide) (by decide) _ (by decide)]
    decide
  have hL : learnLoop 1 [(['a', ' ', '<', '/', 'w', '>'], 1)] []
      = ([(['a'], ['<', '/', 'w', '>'])], [(['a', '<', '/', 'w', '>'], 1)]) := by
    have e1 : learnLoop 1 [(['a', ' ', '<', '/', 'w', '>'], 1)] []
        = learnLoop 0 (merge_vocab (['a'], ['<', '/', 'w', '>'])
            [(['a', ' ', '<', '/', 'w', '>'], 1)]) [(['a'], ['<', '/', 'w', '>'])] := rfl
    rw [e1, h1]
    rfl
  have hempty : get_stats ((learnLoop 1 [(['a', ' ', '<', '/', 'w', '>'], 1)] []).2) = [] := by
    rw [hL]
    rfl
  exact ⟨rfl, by omega, hempty,
    C7_early_termination [['a']] 5 1 _ rfl (by omega) hempty⟩

/-- C10: the final vocabulary returned by `learn_bpe` equals the left fold
of the rewriter over the learned merge rules, in order, applied to the
tokenizer's initial vocabulary: replaying the persisted rules reproduces the
training-time final vocabulary. -/
theorem C10_final_vocab_replay (lines : List Str) (n : Nat) (ms : List Pair)
    (vf : Vocab) (out : Str) (v0 : Vocab)
    (hrun : learn_bpe lines n = .ok (ms, vf, out))
    (hread : read_sentences lines = .ok v0) :
    vf = List.foldl (fun a p => merge_vocab p a) v0 ms := by
  rw [learn_bpe_ok lines n v0 hread] at hrun
  simp only [Except.ok.injEq, Prod.mk.injEq] at hrun
  obtain ⟨hms, hvf, -⟩ := hrun
  rw [← hms, ← hvf]
  exact learnLoop_foldl n v0

/-- C10 witness: one merge on the one-word corpus `ab`. -/
theorem C10_final_vocab_replay_witness :
    learn_bpe [['a', 'b']] 1
      = .ok ([(['a'], ['b'])], [(['a', 'b', ' ', '<', '/', 'w', '>'], 1)],
          writeRules [(['a'], ['b'])])
    ∧ read_sentences [['a', 'b']] = .ok [(['a', ' ', 'b', ' ', '<', '/', 'w', '>'], 1)]
    ∧ [(['a', 'b', ' ', '<', '/', 'w', '>'], 1)]
      = List.foldl (fun a p => merge_vocab p a)
          [(['a', ' ', 'b', ' ', '<', '/', 'w', '>'], 1)] [(['a'], ['b'])] := by
  have h1 : merge_vocab (['a'], ['b']) [(['a', ' ', 'b', ' ', '<', '/', 'w', '>'], 1)]
      = [(['a', 'b', ' ', '<', '/', 'w', '>'], 1)] := by
    rw [merge_vocab_eq_spec ['a'] ['b'] (by decide) (by decide) _ (by decide)]
    decide
  have hL : learnLoop 1 [(['a', ' ', 'b', ' ', '<', '/', 'w', '>'], 1)] []
      = ([(['a'], ['b'])], [(['a', 'b', ' ', '<', '/', 'w', '>'], 1)]) := by
    have e1 : learnLoop 1 [(['a', ' ', 'b', ' ', '<', '/', 'w', '>'], 1)] []
        = learnLoop 0 (merge_vocab (['a'], ['b'])
            [(['a', ' ', 'b', ' ', '<', '/', 'w', '>'], 1)]) [(['a'], ['b'])] := rfl
    rw [e1, h1]
    rfl
  have hrun : learn_bpe [['a', 'b']] 1
      = .ok ([(['a'], ['b'])], [(['a', 'b', ' ', '<', '/', 'w', '>'], 1)],
          writeRules [(['a'], ['b'])]) := by
    rw [learn_bpe_ok [['a', 'b']] 1 [(['a', ' ', 'b', ' ', '<', '/', 'w', '>'], 1)] rfl, hL]
  exact ⟨hrun, rfl,
    C10_final_vocab_replay [['a', 'b']] 1 _ _ _ _ hrun rfl⟩
